import Mathlib

/-!
# pr-size-labeler-action: size classification and label reconciliation

A shallow embedding of `cmd/pr-size-labeler-action/main.go`.

Conventions of the embedding.

* Go `int` is the 64-bit signed integer.  An `int` value is modelled by an
  `Int`; the arithmetic of the program that can leave the 64-bit range,
  `numberOfFiles++` and `numberOfLines += n` in `calculateSizeAndDiff`, wraps
  around as in Go (`wrapInt`).  Comparisons and slice indices need no
  wrap-around.
* Go `string` values reach the program from the YAML configuration and from
  the JSON answers of the GitHub API, both of which deliver valid UTF-8, so
  they are modelled by `String`.  The standard-library functions that read a
  string byte by byte (`path/filepath`, `strings.HasPrefix`, ...) are
  modelled on the UTF-8 bytes of the string.
* A Go run-time panic is an `Except.error` carrying a `Fault`.
* Calls of the GitHub API are recorded in a log of `ApiCall`s; whether a call
  returns an error is a parameter of the function that issues it.
-/

namespace PrSizeLabeler

/-! ## Data model -/

/-- Go run-time panics the program can raise. `indexOutOfRange i n` is
`panic: runtime error: index out of range [i]` on a slice of length `n`. -/
inductive Fault where
  | indexOutOfRange (index : Int) (length : Nat)
  deriving DecidableEq, Repr

/-- Equality of results of fallible code is decidable. -/
instance instDecidableEqExcept {ε α : Type} [DecidableEq ε] [DecidableEq α] :
    DecidableEq (Except ε α)
  | .ok a, .ok b => if h : a = b then isTrue (by rw [h]) else isFalse (by intro h'; cases h'; exact h rfl)
  | .error a, .error b =>
    if h : a = b then isTrue (by rw [h]) else isFalse (by intro h'; cases h'; exact h rfl)
  | .ok _, .error _ => isFalse (by intro h; cases h)
  | .error _, .ok _ => isFalse (by intro h; cases h)

/-- Constant `ParamNameFiles`. -/
def ParamNameFiles : String := "files"

/-- Constant `ParamNameDiff`. -/
def ParamNameDiff : String := "diff"

/-- Type `ConfigEntry`: a single configuration entry for label assignment. -/
structure ConfigEntry where
  Size : String
  Diff : Int
  Files : Int
  Labels : List String
  deriving DecidableEq, Repr

/-- Type `Config`: the entire configuration for label assignment. -/
structure Config where
  ExcludeFiles : List String
  LabelConfigs : List ConfigEntry
  AddedLinesOnly : Bool
  deriving DecidableEq, Repr

/-! ## Tier resolution: `getSize`, `mapNumberOfChangesToSize` -/

/-- Go slice indexing `xs[i]` with its bounds check. -/
def sliceIndex {α : Type} (xs : List α) (i : Int) : Except Fault α :=
  if i < 0 then .error (.indexOutOfRange i xs.length)
  else
    match xs[i.toNat]? with
    | some x => .ok x
    | none => .error (.indexOutOfRange i xs.length)

/-- The `switch paramName` of `getSize`: `entryValue` keeps its zero value
when `paramName` is neither constant. -/
def entryValue (entry : ConfigEntry) (paramName : String) : Int :=
  if paramName = ParamNameFiles then entry.Files
  else if paramName = ParamNameDiff then entry.Diff
  else 0

/-- The `for _, entry := range configuration` loop of `getSize`: `some entry`
when the loop returns `entry`, `none` when the loop runs to its end. -/
def getSizeLoop : List ConfigEntry → Int → String → Option ConfigEntry
  | [], _, _ => none
  | entry :: rest, currentCount, paramName =>
    if currentCount ≤ entryValue entry paramName then some entry
    else getSizeLoop rest currentCount paramName

/-- Function `getSize`: the size configuration for a number of files or of
changed lines. -/
def getSize (configuration : List ConfigEntry) (currentCount : Int)
    (paramName : String) : Except Fault ConfigEntry :=
  match getSizeLoop configuration currentCount paramName with
  | some entry => .ok entry
  | none => sliceIndex configuration ((configuration.length : Int) - 1)

/-- Function `mapNumberOfChangesToSize`. -/
def mapNumberOfChangesToSize (numberOfFiles numberOfLines : Int) (config : Config) :
    Except Fault (ConfigEntry × ConfigEntry) :=
  match getSize config.LabelConfigs numberOfFiles ParamNameFiles with
  | .error f => .error f
  | .ok size =>
    match getSize config.LabelConfigs numberOfLines ParamNameDiff with
    | .error f => .error f
    | .ok diff => .ok (size, diff)

/-! ## Tie-break: `getBiggestEntry`, `findConfigEntryIndex` -/

/-- The `for i, entry := range entries` loop of `findConfigEntryIndex`, with
`i` the index of the head of the remaining entries. -/
def findConfigEntryIndexFrom : List ConfigEntry → String → Int → Int
  | [], _, _ => -1
  | entry :: rest, size, i =>
    if entry.Size = size then i else findConfigEntryIndexFrom rest size (i + 1)

/-- Function `findConfigEntryIndex`. -/
def findConfigEntryIndex (entries : List ConfigEntry) (size : String) : Int :=
  findConfigEntryIndexFrom entries size 0

/-- Function `getBiggestEntry`. -/
def getBiggestEntry (configEntries : List ConfigEntry) (size diff : ConfigEntry) :
    ConfigEntry :=
  let sizeIndex := findConfigEntryIndex configEntries size.Size
  let diffIndex := findConfigEntryIndex configEntries diff.Size
  if sizeIndex ≥ diffIndex then size else diff

/-- Lines 121-122 of `ProcessPullRequest`: the two tiers resolved from the
counts, then the bigger of the two. -/
def biggestEntryOfCounts (numberOfFiles numberOfLines : Int) (config : Config) :
    Except Fault ConfigEntry :=
  match mapNumberOfChangesToSize numberOfFiles numberOfLines config with
  | .error f => .error f
  | .ok (size, diff) => .ok (getBiggestEntry config.LabelConfigs size diff)

/-! ## Go standard library: strings as bytes, `unicode/utf8` -/

/-- UTF-8 encoding of one character, as Go stores it in a `string`. -/
def utf8Encode (c : Char) : List Nat :=
  let v := c.toNat
  if v < 0x80 then [v]
  else if v < 0x800 then [0xC0 + v / 64, 0x80 + v % 64]
  else if v < 0x10000 then [0xE0 + v / 4096, 0x80 + v / 64 % 64, 0x80 + v % 64]
  else [0xF0 + v / 262144, 0x80 + v / 4096 % 64, 0x80 + v / 64 % 64, 0x80 + v % 64]

/-- The bytes of a Go `string`. -/
def goBytes (s : String) : List Nat :=
  (s.toList.map utf8Encode).flatten

/-- Constant `utf8.RuneError`, U+FFFD. -/
def RuneError : Nat := 0xFFFD

/-- Whether `b` is a UTF-8 continuation byte (`locb <= b <= hicb`). -/
def isCont (b : Nat) : Bool := 0x80 ≤ b && b ≤ 0xBF

/-- Go `utf8.DecodeRuneInString`: the first rune of `s` and its width in
bytes; `(RuneError, 0)` on the empty string and `(RuneError, 1)` on an invalid
encoding. The `first` and `acceptRanges` tables are unfolded into the
comparisons on the first two bytes. -/
def DecodeRuneInString (s : List Nat) : Nat × Nat :=
  match s with
  | [] => (RuneError, 0)
  | s0 :: t =>
    if s0 < 0x80 then (s0, 1)
    else if s0 < 0xC2 then (RuneError, 1)
    else if s0 < 0xE0 then
      match t with
      | s1 :: _ => if isCont s1 then ((s0 - 0xC0) * 64 + (s1 - 0x80), 2) else (RuneError, 1)
      | _ => (RuneError, 1)
    else if s0 < 0xF0 then
      match t with
      | s1 :: s2 :: _ =>
        let lo := if s0 = 0xE0 then 0xA0 else 0x80
        let hi := if s0 = 0xED then 0x9F else 0xBF
        if s1 < lo || hi < s1 then (RuneError, 1)
        else if !isCont s2 then (RuneError, 1)
        else ((s0 - 0xE0) * 4096 + (s1 - 0x80) * 64 + (s2 - 0x80), 3)
      | _ => (RuneError, 1)
    else if s0 < 0xF5 then
      match t with
      | s1 :: s2 :: s3 :: _ =>
        let lo := if s0 = 0xF0 then 0x90 else 0x80
        let hi := if s0 = 0xF4 then 0x8F else 0xBF
        if s1 < lo || hi < s1 then (RuneError, 1)
        else if !isCont s2 then (RuneError, 1)
        else if !isCont s3 then (RuneError, 1)
        else ((s0 - 0xF0) * 262144 + (s1 - 0x80) * 4096 + (s2 - 0x80) * 64 + (s3 - 0x80), 4)
      | _ => (RuneError, 1)
    else (RuneError, 1)

/-- Go `strings.HasPrefix`, on bytes. -/
def HasPrefix (s pre : List Nat) : Bool := pre.isPrefixOf s

/-- Go `strings.HasSuffix`, on bytes. -/
def HasSuffix (s suf : List Nat) : Bool := suf.isSuffixOf s

/-! ## Go standard library: `path/filepath` on Unix -/

/-- Constant `filepath.Separator` on Unix, the byte of `/`. -/
def Separator : Nat := 47

/-- Errors of `filepath.Match`. `ErrBadPattern` is Go's only one; `outOfFuel`
marks a loop of the model that was cut off by its step bound, which the
theorems show never happens. -/
inductive PatternError where
  | ErrBadPattern
  | outOfFuel
  deriving DecidableEq, Repr

/-- The scan loop of `scanChunk` after the leading stars: the chunk up to the
first `*` outside a character class, and the rest of the pattern. -/
def scanChunkBody : List Nat → Bool → List Nat × List Nat
  | [], _ => ([], [])
  | 92 :: c :: p, inrange =>
    let r := scanChunkBody p inrange
    (92 :: c :: r.1, r.2)
  | c :: p, inrange =>
    if c = 91 then
      let r := scanChunkBody p true
      (c :: r.1, r.2)
    else if c = 93 then
      let r := scanChunkBody p false
      (c :: r.1, r.2)
    else if c = 42 ∧ inrange = false then ([], c :: p)
    else
      let r := scanChunkBody p inrange
      (c :: r.1, r.2)

/-- The first loop of `scanChunk`: drop the leading stars. -/
def dropStars : List Nat → List Nat
  | 42 :: p => dropStars p
  | p => p

/-- Go `scanChunk`: gets the next segment of the pattern, a non-star string
possibly preceded by a star: `(star, chunk, rest)`. -/
def scanChunk (pattern : List Nat) : Bool × List Nat × List Nat :=
  let star := pattern.head? = some 42
  let r := scanChunkBody (dropStars pattern) false
  (star, r.1, r.2)

/-- Go `getEsc`: gets a possibly-escaped character from a character class. -/
def getEsc (chunk : List Nat) : Except PatternError (Nat × List Nat) :=
  match chunk with
  | [] => .error .ErrBadPattern
  | c :: rest =>
    if c = 45 ∨ c = 93 then .error .ErrBadPattern
    else if c = 92 ∧ rest = [] then .error .ErrBadPattern
    else
      let chunk1 := if c = 92 then rest else c :: rest
      let d := DecodeRuneInString chunk1
      let nchunk := chunk1.drop d.2
      if (d.1 = RuneError ∧ d.2 = 1) ∨ nchunk = [] then .error .ErrBadPattern
      else .ok (d.1, nchunk)

/-- The `for` loop of `matchChunk` that parses all ranges of a character class
against the rune `r`: the final `match` flag and the chunk after the closing
bracket. -/
def matchClass : Nat → List Nat → Nat → Bool → Nat → Except PatternError (Bool × List Nat)
  | 0, _, _, _, _ => .error .outOfFuel
  | fuel + 1, chunk, r, mtch, nrange =>
    if chunk.head? = some 93 ∧ nrange > 0 then .ok (mtch, chunk.tail)
    else
      match getEsc chunk with
      | .error e => .error e
      | .ok (lo, chunk1) =>
        if chunk1.head? = some 45 then
          match getEsc chunk1.tail with
          | .error e => .error e
          | .ok (hi, chunk2) =>
            matchClass fuel chunk2 r (mtch || (decide (lo ≤ r) && decide (r ≤ hi))) (nrange + 1)
        else
          matchClass fuel chunk1 r (mtch || (decide (lo ≤ r) && decide (r ≤ lo))) (nrange + 1)

/-- The main loop of `matchChunk`, with the local variable `failed`:
`.ok (some rest)` is `(rest, true, nil)`, `.ok none` is `("", false, nil)`. -/
def matchChunkLoop : Nat → List Nat → List Nat → Bool → Except PatternError (Option (List Nat))
  | 0, _, _, _ => .error .outOfFuel
  | fuel + 1, chunk, s, failed =>
    match chunk with
    | [] => if failed then .ok none else .ok (some s)
    | c :: chunk1 =>
      let failed := failed || s.isEmpty
      if c = 91 then
        let d := if failed then (0, 0) else DecodeRuneInString s
        let s := s.drop d.2
        let negated := chunk1.head? = some 94
        let chunk2 := if negated then chunk1.tail else chunk1
        match matchClass (chunk2.length + 1) chunk2 d.1 false 0 with
        | .error e => .error e
        | .ok (mtch, chunk3) =>
          matchChunkLoop fuel chunk3 s (failed || (mtch == decide negated))
      else if c = 63 then
        if failed then matchChunkLoop fuel chunk1 s failed
        else
          matchChunkLoop fuel chunk1 (s.drop (DecodeRuneInString s).2)
            (decide (s.head? = some Separator))
      else if c = 92 then
        match chunk1 with
        | [] => .error .ErrBadPattern
        | c1 :: chunk2 =>
          if failed then matchChunkLoop fuel chunk2 s failed
          else matchChunkLoop fuel chunk2 s.tail (decide (s.head? ≠ some c1))
      else
        if failed then matchChunkLoop fuel chunk1 s failed
        else matchChunkLoop fuel chunk1 s.tail (decide (s.head? ≠ some c))

/-- Go `matchChunk`: checks whether `chunk` matches the beginning of `s`. -/
def matchChunk (chunk s : List Nat) : Except PatternError (Option (List Nat)) :=
  matchChunkLoop (chunk.length + 1) chunk s false

/-- The loop `for i := 0; i < len(name) && name[i] != Separator; i++` of
`Match`, which looks for a match of `chunk` skipping `i+1` bytes: `.ok (some t)`
when it leaves by `continue Pattern` with `name = t`, `.ok none` when it runs
to its end. `lastChunk` is `len(pattern) == 0`. -/
def starLoop (chunk : List Nat) (lastChunk : Bool) :
    List Nat → Except PatternError (Option (List Nat))
  | [] => .ok none
  | c :: name1 =>
    if c = Separator then .ok none
    else
      match matchChunk chunk name1 with
      | .error e => .error e
      | .ok none => starLoop chunk lastChunk name1
      | .ok (some t) =>
        if lastChunk && !t.isEmpty then starLoop chunk lastChunk name1 else .ok (some t)

/-- The `Pattern:` loop of `Match`. When a chunk does not match, and for a
starred chunk the loop over the skipped bytes finds no match either, the
function returns `false, nil` without reading the rest of the pattern. -/
def matchLoop : Nat → List Nat → List Nat → Except PatternError Bool
  | 0, _, _ => .error .outOfFuel
  | fuel + 1, pattern, name =>
    if pattern = [] then .ok name.isEmpty
    else
      let sc := scanChunk pattern
      let star := sc.1
      let chunk := sc.2.1
      let rest := sc.2.2
      if star = true ∧ chunk = [] then .ok (!name.contains Separator)
      else
        match matchChunk chunk name with
        | .error e => .error e
        | .ok first =>
          let direct : Option (List Nat) :=
            match first with
            | some t => if t.isEmpty || !rest.isEmpty then some t else none
            | none => none
          match direct with
          | some t => matchLoop fuel rest t
          | none =>
            match (if star then starLoop chunk rest.isEmpty name else .ok none) with
            | .error e => .error e
            | .ok (some t) => matchLoop fuel rest t
            | .ok none => .ok false

/-- Go `filepath.Match` (Unix): reports whether `name` matches the shell file
name pattern; the only error Go returns is `ErrBadPattern`, and it is
returned only when the matching reaches the malformed part of the pattern. -/
def Match (pattern name : List Nat) : Except PatternError Bool :=
  matchLoop (pattern.length + 1) pattern name

/-- Go `filepath.Base` (Unix): the last element of `path`. -/
def Base (path : List Nat) : List Nat :=
  if path = [] then [46]
  else
    let stripped := (path.reverse.dropWhile (fun b => b = Separator)).reverse
    let last := (stripped.reverse.takeWhile (fun b => b ≠ Separator)).reverse
    if last = [] then [Separator] else last

/-- The backtracking of `Clean` at a `..` element, after `out.w--`: the loop
`for out.w > dotdot && !os.IsPathSeparator(out.index(out.w)) \x7b out.w-- \x7d`. -/
def backtrackWidth (out : List Nat) (dotdot : Nat) : Nat → Nat
  | 0 => 0
  | w + 1 =>
    if w + 1 > dotdot ∧ out[w + 1]? ≠ some Separator then backtrackWidth out dotdot w
    else w + 1

/-- The separator `Clean` writes before a real path element:
`if rooted && out.w != 1 || !rooted && out.w != 0 \x7b out.append(Separator) \x7d`. -/
def cleanSep (rooted : Bool) (out : List Nat) : List Nat :=
  if (rooted = true ∧ out.length ≠ 1) ∨ (rooted = false ∧ out.length ≠ 0) then [Separator]
  else []

/-- The main loop of `Clean`, reading the rest of the path and writing to the
buffer `out`; `inElem` is true inside the loop that copies a real path
element. -/
def cleanLoop (rooted : Bool) : List Nat → List Nat → Nat → Bool → List Nat
  | [], out, _, _ => out
  | c :: p1, out, dotdot, true =>
    if c = Separator then cleanLoop rooted p1 out dotdot false
    else cleanLoop rooted p1 (out ++ [c]) dotdot true
  | c :: 46 :: p2, out, dotdot, false =>
    if c = Separator then cleanLoop rooted (46 :: p2) out dotdot false
    else if c = 46 ∧ (p2 = [] ∨ p2.head? = some Separator) then
      if out.length > dotdot then
        cleanLoop rooted p2 (out.take (backtrackWidth out dotdot (out.length - 1))) dotdot false
      else if rooted = false then
        let out1 := (if out.length > 0 then out ++ [Separator] else out) ++ [46, 46]
        cleanLoop rooted p2 out1 out1.length false
      else cleanLoop rooted p2 out dotdot false
    else cleanLoop rooted (46 :: p2) (out ++ cleanSep rooted out ++ [c]) dotdot true
  | c :: p1, out, dotdot, false =>
    if c = Separator then cleanLoop rooted p1 out dotdot false
    else if c = 46 ∧ (p1 = [] ∨ p1.head? = some Separator) then
      cleanLoop rooted p1 out dotdot false
    else cleanLoop rooted p1 (out ++ cleanSep rooted out ++ [c]) dotdot true

/-- Go `filepath.Clean` (Unix): the shortest path name equivalent to `path` by
purely lexical processing. -/
def Clean (path : List Nat) : List Nat :=
  if path = [] then [46]
  else
    let rooted := decide (path.head? = some Separator)
    let out :=
      if rooted then cleanLoop rooted path.tail [Separator] 1 false
      else cleanLoop rooted path [] 0 false
    if out = [] then [46] else out

/-- Go `filepath.Dir` (Unix): all but the last element of `path`, cleaned. -/
def Dir (path : List Nat) : List Nat :=
  Clean (path.reverse.dropWhile (fun b => b ≠ Separator)).reverse

/-! ## Aggregation: `shouldExcludeFile`, `calculateSizeAndDiff` -/

/-- Function `shouldExcludeFile`: checks if a file should be excluded based on
the configuration. -/
def shouldExcludeFile (filename : String) : List String → Bool
  | [] => false
  | pattern :: patterns =>
    match Match (goBytes pattern) (goBytes filename) with
    | .error _ => shouldExcludeFile filename patterns
    | .ok true => true
    | .ok false =>
      let justFileName := Base (goBytes filename)
      match Match (goBytes pattern) justFileName with
      | .error _ => shouldExcludeFile filename patterns
      | .ok true => true
      | .ok false =>
        if HasSuffix (goBytes pattern) (goBytes "/*") then
          let dirPattern := Dir (goBytes pattern)
          if HasPrefix (goBytes filename) dirPattern then true
          else shouldExcludeFile filename patterns
        else shouldExcludeFile filename patterns

/-- Type `github.CommitFile`, as far as the program reads it; every field is
a pointer in Go and may be nil. -/
structure CommitFile where
  Filename : Option String
  Status : Option String
  Additions : Option Int
  Changes : Option Int
  deriving DecidableEq, Repr

/-- Getter `GetFilename`: the zero value when the field is nil. -/
def CommitFile.GetFilename (file : CommitFile) : String := file.Filename.getD ""

/-- Getter `GetStatus`. -/
def CommitFile.GetStatus (file : CommitFile) : String := file.Status.getD ""

/-- Getter `GetAdditions`. -/
def CommitFile.GetAdditions (file : CommitFile) : Int := file.Additions.getD 0

/-- Getter `GetChanges`. -/
def CommitFile.GetChanges (file : CommitFile) : Int := file.Changes.getD 0

/-- The value a Go `int` holds after an arithmetic operation whose exact
result is `x`: the 64-bit two's complement wrap-around into
`[-2^63, 2^63)`. -/
def wrapInt (x : Int) : Int :=
  (x + 9223372036854775808) % 18446744073709551616 - 9223372036854775808

/-- The `for _, file := range files` loop of `calculateSizeAndDiff`, on the
remaining files and the current `(numberOfFiles, numberOfLines)`. -/
def calculateSizeAndDiffLoop (config : Config) : List CommitFile → Int × Int → Int × Int
  | [], acc => acc
  | file :: files, (numberOfFiles, numberOfLines) =>
    if config.AddedLinesOnly = true ∧ file.GetStatus = "removed" then
      calculateSizeAndDiffLoop config files (numberOfFiles, numberOfLines)
    else if !shouldExcludeFile file.GetFilename config.ExcludeFiles then
      if config.AddedLinesOnly then
        calculateSizeAndDiffLoop config files
          (wrapInt (numberOfFiles + 1), wrapInt (numberOfLines + file.GetAdditions))
      else
        calculateSizeAndDiffLoop config files
          (wrapInt (numberOfFiles + 1), wrapInt (numberOfLines + file.GetChanges))
    else calculateSizeAndDiffLoop config files (numberOfFiles, numberOfLines)

/-- Function `calculateSizeAndDiff`: the size and diff of the pull request. -/
def calculateSizeAndDiff (files : List CommitFile) (config : Config) : Int × Int :=
  calculateSizeAndDiffLoop config files (0, 0)

/-- The helper `mockCommitFile` of the tests. -/
def mockCommitFile (filename : String) (changes : Int) : CommitFile :=
  ⟨some filename, none, none, some changes⟩

/-! ## Label reconciliation: `updatePullRequestLabel`, `removeOtherSizeLabels` -/

/-- Type `github.Label`, as far as the program reads it. -/
structure Label where
  Name : Option String
  deriving DecidableEq, Repr

/-- Getter `GetName`: the zero value when the field is nil. -/
def Label.GetName (label : Label) : String := label.Name.getD ""

/-- Type `github.PullRequest`, as far as the program reads it. -/
structure PullRequest where
  Labels : List Label
  deriving DecidableEq, Repr

/-- The calls of the GitHub API that change the labels of the pull request. -/
inductive ApiCall where
  | RemoveLabelForIssue (label : String)
  | AddLabelsToIssue (labels : List String)
  deriving DecidableEq, Repr

/-- The behaviour of the GitHub API: given the calls issued so far and the
next call, whether that call returns an error. -/
abbrev ApiErrors := List ApiCall → ApiCall → Bool

/-- Function `contains`: `slices.Contains`. -/
def contains (slice : List String) (item : String) : Bool :=
  match slice with
  | [] => false
  | x :: rest => if x = item then true else contains rest item

/-- Function `isSizeLabel`: checks if a label is a size label. -/
def isSizeLabel (labelName : String) : List ConfigEntry → Bool
  | [] => false
  | configLabel :: labelConfigs =>
    if contains configLabel.Labels labelName then true
    else isSizeLabel labelName labelConfigs

/-- The loop of `labelExists` over `pr.Labels`. -/
def labelExistsLoop (labelName : String) : List Label → Bool
  | [] => false
  | label :: labels =>
    if label.GetName = labelName then true else labelExistsLoop labelName labels

/-- Function `labelExists`: checks if a label already exists on a pull
request. -/
def labelExists (pr : PullRequest) (labelName : String) : Bool :=
  labelExistsLoop labelName pr.Labels

/-- The loop of `removeOtherSizeLabels` over the remaining labels of the pull
request, with the calls issued so far; the result is the log of calls and
whether an error is returned. -/
def removeOtherSizeLabelsLoop (api : ApiErrors) (config : Config) (entry : ConfigEntry) :
    List Label → List ApiCall → List ApiCall × Bool
  | [], log => (log, false)
  | label :: labels, log =>
    if isSizeLabel label.GetName config.LabelConfigs = true ∧
        contains entry.Labels label.GetName = false then
      let call := ApiCall.RemoveLabelForIssue label.GetName
      if api log call then (log ++ [call], true)
      else removeOtherSizeLabelsLoop api config entry labels (log ++ [call])
    else removeOtherSizeLabelsLoop api config entry labels log

/-- Function `removeOtherSizeLabels`: removes labels that are different from
the current size labels. -/
def removeOtherSizeLabels (api : ApiErrors) (pr : PullRequest) (config : Config)
    (entry : ConfigEntry) (log : List ApiCall) : List ApiCall × Bool :=
  removeOtherSizeLabelsLoop api config entry pr.Labels log

/-- The loop `for _, label := range entry.Labels` of
`updatePullRequestLabel`. -/
def addLabelsLoop (api : ApiErrors) (pr : PullRequest) :
    List String → List ApiCall → List ApiCall × Bool
  | [], log => (log, false)
  | label :: labels, log =>
    if labelExists pr label = false then
      let call := ApiCall.AddLabelsToIssue [label]
      if api log call then (log ++ [call], true)
      else addLabelsLoop api pr labels (log ++ [call])
    else addLabelsLoop api pr labels log

/-- Method `updatePullRequestLabel`: updates the labels of the pull request
based on its size. `fetched` is the answer of `PullRequests.Get`, `none` when
it returns an error. The result is the log of the label calls issued and
whether the method returns an error. -/
def updatePullRequestLabel (api : ApiErrors) (fetched : Option PullRequest) (config : Config)
    (entry : ConfigEntry) : List ApiCall × Bool :=
  match fetched with
  | none => ([], true)
  | some pr =>
    let removed := removeOtherSizeLabels api pr config entry []
    if removed.2 then removed
    else addLabelsLoop api pr entry.Labels removed.1

/-- The labels for which a log holds a `RemoveLabelForIssue` call. -/
def removedLabels : List ApiCall → List String
  | [] => []
  | .RemoveLabelForIssue label :: log => label :: removedLabels log
  | .AddLabelsToIssue _ :: log => removedLabels log

/-- The labels for which a log holds an `AddLabelsToIssue` call. -/
def addedLabels : List ApiCall → List String
  | [] => []
  | .RemoveLabelForIssue _ :: log => addedLabels log
  | .AddLabelsToIssue labels :: log => labels ++ addedLabels log

/-- An API none of whose calls returns an error. -/
def apiOk : ApiErrors := fun _ _ => false

/-- The helper `mockPullRequest` of the tests. -/
def mockPullRequest (labels : List String) : PullRequest :=
  ⟨labels.map (fun l => ⟨some l⟩)⟩

/-- The names of the labels of a pull request. -/
def labelNames (pr : PullRequest) : List String := pr.Labels.map Label.GetName

/-- The five tiers of `TestGetSize`. -/
def testTiers : List ConfigEntry :=
  [⟨"xs", 10, 1, ["size/xs"]⟩, ⟨"s", 50, 10, ["size/s"]⟩, ⟨"m", 100, 20, ["size/m"]⟩,
   ⟨"l", 500, 50, ["size/l"]⟩, ⟨"xl", 1000, 100, ["size/xl"]⟩]

/-! ## Vocabulary of the statements -/

/-- The name `name` is found in `tiers` at position `p` by a first-match
lookup: the tier at `p` has that name and no earlier tier has it. -/
def FirstAt (tiers : List ConfigEntry) (name : String) (p : Nat) : Prop :=
  (∃ t, tiers[p]? = some t ∧ t.Size = name) ∧
    ∀ j t, j < p → tiers[j]? = some t → t.Size ≠ name

/-- A configuration in which the tier name "a" is used twice. -/
def repeatedNameConfig : Config :=
  ⟨[], [⟨"a", 1, 1, ["size/a"]⟩, ⟨"b", 5, 5, ["size/b"]⟩, ⟨"a", 10, 10, ["size/c"]⟩], false⟩

/-- The three tiers of `TestGetBiggestEntry`. -/
def testEntries : List ConfigEntry :=
  [⟨"small", 10, 1, ["label1"]⟩, ⟨"medium", 20, 2, ["label2"]⟩, ⟨"large", 30, 3, ["label3"]⟩]

/-- The configuration of `TestCalculateSizeAndDiff`. -/
def testConfig : Config := ⟨["exclude.*"], testTiers, false⟩

/-- The tier "l" of the tests, as the winning tier of the examples. -/
def tierL : ConfigEntry := ⟨"l", 500, 50, ["size/l"]⟩

/-- A change record is kept by the aggregation when it is not the case that
`AddedLinesOnly` is true and its status is "removed", and its filename is not
excluded by `shouldExcludeFile` against `ExcludeFiles`. -/
def keptRecord (config : Config) (file : CommitFile) : Bool :=
  decide (¬ (config.AddedLinesOnly = true ∧ file.GetStatus = "removed") ∧
    shouldExcludeFile file.GetFilename config.ExcludeFiles = false)

/-- The lines a kept change record counts for: its additions when
`AddedLinesOnly` is true, its total changes otherwise. -/
def countedLines (config : Config) (file : CommitFile) : Int :=
  if config.AddedLinesOnly then file.GetAdditions else file.GetChanges

/-- The error of a result of fallible code, if any. -/
def errOf {ε α : Type} : Except ε α → Option ε
  | .error e => some e
  | .ok _ => none

/-- What the parse of a character class leaves of the chunk, whatever rune it
was matched against. -/
def classRest : Except PatternError (Bool × List Nat) → Except PatternError (List Nat)
  | .error e => .error e
  | .ok r => .ok r.2

/-- A pattern is malformed when `filepath.Match` reports `ErrBadPattern` for
it on some name. -/
def Malformed (pattern : String) : Prop :=
  ∃ name, Match (goBytes pattern) name = .error .ErrBadPattern

/-- A syntax check of a whole pattern, which is not part of the program:
every chunk of the pattern is parsed by `matchChunk` without an error. The
first argument bounds the number of chunks. -/
def patternParses : Nat → List Nat → Bool
  | 0, _ => false
  | fuel + 1, pattern =>
    if pattern = [] then true
    else
      match matchChunk (scanChunk pattern).2.1 [] with
      | .error _ => false
      | .ok _ => patternParses fuel (scanChunk pattern).2.2

/-- The three ways in which `shouldExcludeFile` lets one pattern exclude a
file: `filepath.Match` reports a match on the full path; or it reports neither
a match nor an error on the full path and a match on the base name; or it
reports neither a match nor an error on both, the pattern ends in "/*" and the
path starts with `filepath.Dir` of the pattern. -/
def ExcludedBy (filename pattern : String) : Prop :=
  Match (goBytes pattern) (goBytes filename) = .ok true ∨
  (Match (goBytes pattern) (goBytes filename) = .ok false ∧
    Match (goBytes pattern) (Base (goBytes filename)) = .ok true) ∨
  (Match (goBytes pattern) (goBytes filename) = .ok false ∧
    Match (goBytes pattern) (Base (goBytes filename)) = .ok false ∧
    HasSuffix (goBytes pattern) (goBytes "/*") = true ∧
    HasPrefix (goBytes filename) (Dir (goBytes pattern)) = true)

/-- A configuration whose only exclusion pattern is malformed and ends in
"/*". -/
def badDirPattern : String := "[b]*[]/*"

/-- Half of the range of a Go `int`: two changed files with this many changes
each. -/
def hugeChanges : Int := 4611686018427387904

/-! ## The run of the action: `ProcessPullRequest` -/

/-- How a run of `ProcessPullRequest` ends: it returns, or `exitOnError` ends
the process with `os.Exit(1)`, or a run-time panic ends it. -/
inductive Ending where
  | returned
  | exited (code : Nat)
  | panicked (fault : Fault)
  deriving DecidableEq, Repr

/-- Method `ProcessPullRequest`: processes the files of a pull request and
applies labels accordingly. `listed` is the answer of `fetchPullRequestFiles`
and `fetched` the answer of `PullRequests.Get`, each `none` when the call
returns an error. The result is the log of the label calls issued and how the
run ends. -/
def ProcessPullRequest (api : ApiErrors) (listed : Option (List CommitFile))
    (fetched : Option PullRequest) (config : Config) : List ApiCall × Ending :=
  match listed with
  | none => ([], .exited 1)
  | some files =>
    let counts := calculateSizeAndDiff files config
    match mapNumberOfChangesToSize counts.1 counts.2 config with
    | .error fault => ([], .panicked fault)
    | .ok (size, diff) =>
      let biggestEntry := getBiggestEntry config.LabelConfigs size diff
      let updated := updatePullRequestLabel api fetched config biggestEntry
      if updated.2 then (updated.1, .exited 1) else (updated.1, .returned)

/-- A configuration whose first tier references no label. -/
def emptyLabelsConfig : Config :=
  ⟨[], [⟨"xs", 10, 1, []⟩, ⟨"s", 50, 10, ["size/s"]⟩], false⟩

/-- The configuration of Scenario E: the tiers xs, s, m and l, one label
each. -/
def scenarioEConfig : Config :=
  ⟨[], [⟨"xs", 10, 1, ["size/xs"]⟩, ⟨"s", 50, 10, ["size/s"]⟩, ⟨"m", 100, 20, ["size/m"]⟩,
    ⟨"l", 500, 50, ["size/l"]⟩], false⟩

/-! ## Go standard library: `strings.Split`, `strings.ToLower` -/

/-- Go `strings.Index(s, sep)` for a separator of one byte, as the program
uses it with "/": the index of the first occurrence, `none` for Go's -1. -/
def Index (sep : Nat) : List Nat → Option Nat
  | [] => none
  | c :: t => if c = sep then some 0 else (Index sep t).map (fun m => m + 1)

/-- Go `strings.Count(s, sep)` for a separator of one byte. -/
def Count (sep : Nat) : List Nat → Nat
  | [] => 0
  | c :: t => if c = sep then Count sep t + 1 else Count sep t

/-- The loop `for i < n` of Go `genSplit`, with `left = n - i` rounds left:
each round cuts the string at the next separator, and the rest of the string
is the last element of the result. -/
def genSplitLoop (sep : Nat) : Nat → List Nat → List (List Nat)
  | 0, s => [s]
  | left + 1, s =>
    match Index sep s with
    | none => [s]
    | some m => s.take m :: genSplitLoop sep left (s.drop (m + 1))

/-- Go `strings.Split(s, sep)` for a separator of one byte: `genSplit` with
`n = Count(s, sep) + 1` elements at most. -/
def Split (s : List Nat) (sep : Nat) : List (List Nat) :=
  genSplitLoop sep (Count sep s) s

/-- The lower-case mapping of ASCII letters: `c += 'a' - 'A'` for `'A' <= c`
and `c <= 'Z'`. -/
def asciiToLower (c : Char) : Char :=
  if 65 ≤ c.toNat ∧ c.toNat ≤ 90 then Char.ofNat (c.toNat + 32) else c

/-- Go `unicode.ToLower`: the ASCII mapping up to `MaxASCII`, and
`unicode.To(unicode.LowerCase, r)` above it. The case tables of the Go library
behind the latter are the parameter `lowerCase`. -/
def unicodeToLower (lowerCase : Char → Char) (r : Char) : Char :=
  if r.toNat ≤ 0x7F then asciiToLower r else lowerCase r

/-- Go `strings.ToLower`: for a string of ASCII bytes only, the string itself
when it has no upper-case letter and otherwise the string with its upper-case
letters mapped; for any other string `Map(unicode.ToLower, s)`. -/
def ToLower (lowerCase : Char → Char) (s : String) : String :=
  if s.data.all (fun c => decide (c.toNat < 0x80)) then
    if s.data.any (fun c => decide (65 ≤ c.toNat ∧ c.toNat ≤ 90)) then
      String.mk (s.data.map asciiToLower)
    else s
  else String.mk (s.data.map (unicodeToLower lowerCase))

/-! ## Validation of the environment: event type and repository name -/

/-- The map literal `allowedEvents` of `isValidGitHubEventType`. -/
def allowedEvents : List (String × Bool) :=
  [("pull_request", true), ("pull_request_target", true)]

/-- Go map indexing `m[key]` on a `map[string]bool`: the zero value `false`
for a key that is not in the map. -/
def mapIndex (m : List (String × Bool)) (key : String) : Bool :=
  match m with
  | [] => false
  | (k, v) :: rest => if k = key then v else mapIndex rest key

/-- Function `isValidGitHubEventType`: checks if the event name is a valid
pull request event. -/
def isValidGitHubEventType (lowerCase : Char → Char) (eventName : String) : Bool :=
  if mapIndex allowedEvents (ToLower lowerCase eventName) then true else false

/-- Function `parseRepoOwner`: extracts the repository owner from the full
repository name. -/
def parseRepoOwner (repoName : String) : Except Fault (List Nat) :=
  let parts := Split (goBytes repoName) 47
  sliceIndex parts 0

/-- Function `parseRepoName`: extracts the repository name from the full
repository name. -/
def parseRepoName (repoName : String) : Except Fault (List Nat) :=
  let parts := Split (goBytes repoName) 47
  if parts.length > 1 then sliceIndex parts 1 else .ok (goBytes repoName)

/-- Function `isValidRepoNameFormat`: checks if a given repository name is in
the 'owner/repository' format. The indexing is guarded by the length test,
as `&&` evaluates its right operand only when the left one is true. -/
def isValidRepoNameFormat (repoName : String) : Bool :=
  let parts := Split (goBytes repoName) 47
  if parts.length = 2 then
    match sliceIndex parts 0, sliceIndex parts 1 with
    | .ok owner, .ok name => decide (owner ≠ []) && decide (name ≠ [])
    | _, _ => false
  else false

/-- The tier at position `i` is the one `getSize` resolves the count to, for
the threshold `thr` of a dimension: either it is the first tier whose
threshold is at least the count, or no tier has such a threshold and `i` is
the last position. -/
def ResolvesAt (tiers : List ConfigEntry) (thr : ConfigEntry → Int) (count : Int)
    (i : Nat) : Prop :=
  (∃ e, tiers[i]? = some e ∧ count ≤ thr e ∧
      ∀ j e2, j < i → tiers[j]? = some e2 → thr e2 < count) ∨
    (i + 1 = tiers.length ∧ ∀ e ∈ tiers, thr e < count)

/-! ## Sanity checks against the repository's tests -/

example : getSize testTiers 0 "files" = .ok ⟨"xs", 10, 1, ["size/xs"]⟩ := by decide
example : getSize testTiers 10 "files" = .ok ⟨"s", 50, 10, ["size/s"]⟩ := by decide
example : getSize testTiers 15 "files" = .ok ⟨"m", 100, 20, ["size/m"]⟩ := by decide
example : getSize testTiers 105 "files" = .ok ⟨"xl", 1000, 100, ["size/xl"]⟩ := by decide
example : getSize testTiers 100 "diff" = .ok ⟨"m", 100, 20, ["size/m"]⟩ := by decide
example : getSize testTiers 1500 "diff" = .ok ⟨"xl", 1000, 100, ["size/xl"]⟩ := by decide
example : findConfigEntryIndex testTiers "m" = 2 := by decide
example : findConfigEntryIndex testTiers "none" = -1 := by decide
example : findConfigEntryIndex [] "any" = -1 := by decide

example : shouldExcludeFile "foo.bar" ["foo.bar"] = true := by decide
example : shouldExcludeFile "example.xyz" ["*.xyz"] = true := by decide
example : shouldExcludeFile "test.txt" ["*.xyz"] = false := by decide
example : shouldExcludeFile "/path/to/file/foo.bar" ["/path/to/file/foo.bar"] = true := by decide
example : shouldExcludeFile "/some/path/example.txt" ["/some/path/*"] = true := by decide
example : shouldExcludeFile "/another/path/example.txt" ["/some/path/*"] = false := by decide

example : updatePullRequestLabel apiOk (some (mockPullRequest ["size/m", "bug"]))
    ⟨[], testTiers, false⟩ ⟨"l", 500, 50, ["size/l"]⟩ =
    ([.RemoveLabelForIssue "size/m", .AddLabelsToIssue ["size/l"]], false) := by decide

example : shouldExcludeFile "/complex/path/with/multiple/sections/file.xyz"
    ["/complex/path/*/multiple/*/file.xyz"] = true := by decide
example : shouldExcludeFile "/nested/directory/structure/file.txt" ["/nested/directory/*"] = true := by
  decide
example : shouldExcludeFile "multiple.patterns.match" ["*.patterns.*", "multiple.*"] = true := by
  decide
example : shouldExcludeFile "no.pattern.match" ["*.patterns.*", "multiple.*"] = false := by decide
example : shouldExcludeFile "/var/log/app.log" ["/var/*/app.*", "*.log"] = true := by decide
example : shouldExcludeFile "/rootfile.txt" ["/*.txt"] = true := by decide
example : shouldExcludeFile "/dir/rootfile.txt" ["/*.txt"] = false := by decide
example : shouldExcludeFile "file_with_underscores_and_numbers_123.txt"
    ["file_with_underscores_and_numbers_*.txt"] = true := by decide
example : shouldExcludeFile "file?.txt" ["file?.txt"] = true := by decide
example : Match (goBytes "[") (goBytes "a") = .error .ErrBadPattern := by decide
example : Match (goBytes "a[") (goBytes "b") = .error .ErrBadPattern := by decide
example : Match (goBytes "*??") (goBytes "€") = .ok true := by decide
example : Dir (goBytes "/some/path/*") = goBytes "/some/path" := by decide
example : Dir (goBytes "a//b/../c/*") = goBytes "a/c" := by decide
example : Base (goBytes "/path/to/file/foo.bar") = goBytes "foo.bar" := by decide
example : calculateSizeAndDiff [] testConfig = (0, 0) := by decide
example : calculateSizeAndDiff [mockCommitFile "file1.go" 5, mockCommitFile "file2.go" 10]
    testConfig = (2, 15) := by decide
example : calculateSizeAndDiff [mockCommitFile "exclude.txt" 100, mockCommitFile "file2.go" 20]
    testConfig = (1, 20) := by decide
example : getBiggestEntry testEntries ⟨"large", 30, 3, ["label3"]⟩ ⟨"medium", 20, 2, ["label2"]⟩ =
    ⟨"large", 30, 3, ["label3"]⟩ := by decide
example : getBiggestEntry testEntries ⟨"xlarge", 40, 4, ["label4"]⟩ ⟨"medium", 20, 2, ["label2"]⟩ =
    ⟨"medium", 20, 2, ["label2"]⟩ := by decide
example : getBiggestEntry testEntries ⟨"xlarge", 40, 4, ["label4"]⟩ ⟨"xxlarge", 50, 5, ["label5"]⟩ =
    ⟨"xlarge", 40, 4, ["label4"]⟩ := by decide
example : isSizeLabel "review-wanted"
    [⟨"xs", 10, 1, ["size/xs", "review-wanted"]⟩, ⟨"s", 50, 10, ["size/s", "review-wanted"]⟩] = true := by
  decide
example : isSizeLabel "size/m"
    [⟨"xs", 10, 1, ["size/xs", "review-wanted"]⟩, ⟨"s", 50, 10, ["size/s", "review-wanted"]⟩] = false := by
  decide
example : labelExists (mockPullRequest ["size/xs", "bug"]) "size/xs" = true := by decide
example : labelExists (mockPullRequest ["size/xs", "bug"]) "enhancement" = false := by decide
example : labelExists (mockPullRequest []) "size/xs" = false := by decide

example : parseRepoOwner "owner/repo" = .ok (goBytes "owner") := by decide
example : parseRepoOwner "/repo" = .ok (goBytes "") := by decide
example : parseRepoOwner "owner" = .ok (goBytes "owner") := by decide
example : parseRepoOwner "owner/repo/extra" = .ok (goBytes "owner") := by decide
example : parseRepoName "owner/repo" = .ok (goBytes "repo") := by decide
example : parseRepoName "owner/" = .ok (goBytes "") := by decide
example : parseRepoName "repo" = .ok (goBytes "repo") := by decide
example : parseRepoName "owner/repo/extra" = .ok (goBytes "repo") := by decide
example : Split (goBytes "") 47 = [[]] := by decide
example : ∀ lowerCase, isValidGitHubEventType lowerCase "random_event" = false := fun _ => rfl
example : ∀ lowerCase, isValidGitHubEventType lowerCase "issue" = false := fun _ => rfl
example : ∀ lowerCase, isValidGitHubEventType lowerCase "null" = false := fun _ => rfl
example : getBiggestEntry testEntries ⟨"medium", 20, 2, ["label2"]⟩ ⟨"xlarge", 40, 4, ["label4"]⟩ =
    ⟨"medium", 20, 2, ["label2"]⟩ := by decide

example : Match (goBytes "x*[") (goBytes "y") = .ok false := by decide
example : Match (goBytes "a*[") (goBytes "dir/a.go") = .ok false := by decide
example : Match (goBytes "a*[") (Base (goBytes "dir/a.go")) = .error .ErrBadPattern := by decide
example : Match (goBytes "[b]*[]/*") (goBytes "b") = .error .ErrBadPattern := by decide
example : shouldExcludeFile "[b]*[]/x" ["[b]*[]/*"] = true := by decide
example : shouldExcludeFile "dir/a.go" ["a*[", "*.go"] = true := by decide
example : wrapInt 9223372036854775808 = -9223372036854775808 := by decide
example : wrapInt (-9223372036854775809) = 9223372036854775807 := by decide
example : wrapInt 25 = 25 := by decide

/-! ## Tier resolution -/

theorem getSizeLoop_first (p : String) (n : Int) :
    ∀ (cfg : List ConfigEntry) (i : Nat) (e : ConfigEntry), cfg[i]? = some e →
      n ≤ entryValue e p →
      (∀ j e', j < i → cfg[j]? = some e' → entryValue e' p < n) →
      getSizeLoop cfg n p = some e := by
  intro cfg
  induction cfg with
  | nil => intro i e h; simp at h
  | cons a rest ih =>
    intro i e h hle hlt
    cases i with
    | zero =>
      simp at h
      subst h
      simp [getSizeLoop, hle]
    | succ k =>
      have ha : entryValue a p < n := hlt 0 a (Nat.succ_pos k) (by simp)
      have hrest : getSizeLoop rest n p = some e := by
        apply ih k e (by simpa using h) hle
        intro j e' hj hje
        exact hlt (j + 1) e' (Nat.succ_lt_succ hj) (by simpa using hje)
      simp [getSizeLoop, not_le.mpr ha, hrest]

theorem getSizeLoop_none (p : String) (n : Int) :
    ∀ cfg : List ConfigEntry, (∀ e ∈ cfg, entryValue e p < n) → getSizeLoop cfg n p = none := by
  intro cfg
  induction cfg with
  | nil => intro _; rfl
  | cons a rest ih =>
    intro h
    have ha : entryValue a p < n := h a (by simp)
    simp [getSizeLoop, not_le.mpr ha]
    exact ih (fun e he => h e (by simp [he]))

theorem sliceIndex_last {α : Type} (xs : List α) (hne : xs ≠ []) :
    sliceIndex xs ((xs.length : Int) - 1) = .ok (xs.getLast hne) := by
  have hpos : 0 < xs.length := List.length_pos.mpr hne
  have h1 : ¬ ((xs.length : Int) - 1 < 0) := by omega
  have h2 : ((xs.length : Int) - 1).toNat = xs.length - 1 := by omega
  have h3 : xs[xs.length - 1]? = some (xs.getLast hne) := by
    rw [List.getLast_eq_getElem, List.getElem?_eq_getElem]
  simp [sliceIndex, h1, h2, h3]

theorem entryValue_files (e : ConfigEntry) : entryValue e "files" = e.Files := by
  simp [entryValue, ParamNameFiles]

theorem entryValue_diff (e : ConfigEntry) : entryValue e "diff" = e.Diff := by
  have h : ¬ ("diff" = ParamNameFiles) := by decide
  simp [entryValue, ParamNameDiff, h]

/-- C1: for a non-empty tier list (sorted or not), every count and each of the
dimensions "files" and "diff", `getSize` returns the entry at the smallest
index whose threshold for the dimension is at least the count, and the last
entry of the list when no entry has such a threshold. -/
theorem getSize_first_fit_or_last (configuration : List ConfigEntry) (currentCount : Int)
    (hne : configuration ≠ []) :
    (∀ (i : Nat) (e : ConfigEntry), configuration[i]? = some e → currentCount ≤ e.Files →
        (∀ j e', j < i → configuration[j]? = some e' → e'.Files < currentCount) →
        getSize configuration currentCount "files" = .ok e) ∧
    ((∀ e ∈ configuration, e.Files < currentCount) →
        getSize configuration currentCount "files" = .ok (configuration.getLast hne)) ∧
    (∀ (i : Nat) (e : ConfigEntry), configuration[i]? = some e → currentCount ≤ e.Diff →
        (∀ j e', j < i → configuration[j]? = some e' → e'.Diff < currentCount) →
        getSize configuration currentCount "diff" = .ok e) ∧
    ((∀ e ∈ configuration, e.Diff < currentCount) →
        getSize configuration currentCount "diff" = .ok (configuration.getLast hne)) := by
  refine ⟨?_, ?_, ?_, ?_⟩
  · intro i e hi hle hlt
    have := getSizeLoop_first "files" currentCount configuration i e hi
      (by rw [entryValue_files]; exact hle)
      (fun j e' hj hje => by rw [entryValue_files]; exact hlt j e' hj hje)
    simp [getSize, this]
  · intro h
    have := getSizeLoop_none "files" currentCount configuration
      (fun e he => by rw [entryValue_files]; exact h e he)
    simp [getSize, this, sliceIndex_last configuration hne]
  · intro i e hi hle hlt
    have := getSizeLoop_first "diff" currentCount configuration i e hi
      (by rw [entryValue_diff]; exact hle)
      (fun j e' hj hje => by rw [entryValue_diff]; exact hlt j e' hj hje)
    simp [getSize, this]
  · intro h
    have := getSizeLoop_none "diff" currentCount configuration
      (fun e he => by rw [entryValue_diff]; exact h e he)
    simp [getSize, this, sliceIndex_last configuration hne]

theorem getSize_first_fit_or_last_witness :
    getSize testTiers 15 "files" = .ok ⟨"m", 100, 20, ["size/m"]⟩ ∧
    getSize testTiers 1500 "diff" = .ok ⟨"xl", 1000, 100, ["size/xl"]⟩ :=
  ⟨(getSize_first_fit_or_last testTiers 15 (by decide)).1 2 _ (by decide) (by decide)
      (by
        intro j e' hj h
        interval_cases j <;> simp [testTiers] at h <;> subst h <;> decide),
   (getSize_first_fit_or_last testTiers 1500 (by decide)).2.2.2
      (by
        intro e he
        simp [testTiers] at he
        rcases he with h | h | h | h | h <;> subst h <;> decide)⟩

/-- C10, as the code behaves: on the empty tier list `getSize` has no guard;
for every count and dimension the loop body never runs and the final
`configuration[len(configuration)-1]` panics with index out of range [-1]. -/
theorem getSize_empty_index_out_of_range (currentCount : Int) (paramName : String) :
    getSize [] currentCount paramName = .error (.indexOutOfRange (-1) 0) := by
  simp [getSize, getSizeLoop, sliceIndex]

/-- C10, counterexample: the failure of `getSize` on the empty tier list is the
index-out-of-range fault of the slice access. -/
theorem getSize_empty_counterexample :
    getSize [] 0 "files" = .error (.indexOutOfRange (-1) 0) ∧
    getSize [] 0 "diff" = .error (.indexOutOfRange (-1) 0) := by
  constructor <;> decide

/-! ## Tie-break -/

theorem findConfigEntryIndexFrom_firstAt (name : String) :
    ∀ (tiers : List ConfigEntry) (k : Int) (p : Nat), FirstAt tiers name p →
      findConfigEntryIndexFrom tiers name k = k + p := by
  intro tiers
  induction tiers with
  | nil =>
    intro k p h
    obtain ⟨⟨t, ht, _⟩, _⟩ := h
    simp at ht
  | cons a rest ih =>
    intro k p h
    obtain ⟨⟨t, ht, hname⟩, hbefore⟩ := h
    cases p with
    | zero =>
      simp at ht
      subst ht
      simp [findConfigEntryIndexFrom, hname]
    | succ q =>
      have ha : a.Size ≠ name := hbefore 0 a (Nat.succ_pos q) (by simp)
      have hrest : FirstAt rest name q := by
        refine ⟨⟨t, by simpa using ht, hname⟩, ?_⟩
        intro j t' hj hjt
        exact hbefore (j + 1) t' (Nat.succ_lt_succ hj) (by simpa using hjt)
      simp only [findConfigEntryIndexFrom, ha, if_false]
      rw [ih (k + 1) q hrest]
      push_cast
      ring

theorem findConfigEntryIndex_firstAt (tiers : List ConfigEntry) (name : String) (p : Nat)
    (h : FirstAt tiers name p) : findConfigEntryIndex tiers name = p := by
  simp [findConfigEntryIndex, findConfigEntryIndexFrom_firstAt name tiers 0 p h]

theorem getBiggestEntry_of_firstAt (tiers : List ConfigEntry) (byFiles byLines : ConfigEntry)
    (p1 p2 : Nat) (h1 : FirstAt tiers byFiles.Size p1) (h2 : FirstAt tiers byLines.Size p2) :
    getBiggestEntry tiers byFiles byLines = if p2 ≤ p1 then byFiles else byLines := by
  simp only [getBiggestEntry, findConfigEntryIndex_firstAt tiers _ p1 h1,
    findConfigEntryIndex_firstAt tiers _ p2 h2, ge_iff_le, Nat.cast_le]

/-- C3, as the code behaves: for candidates whose names are found in the tier
list at positions `p1` and `p2` (first match by name), `getBiggestEntry`
returns the candidate `byFiles` when `p1 >= p2` (so also when `p1 = p2`) and
the candidate `byLines` otherwise; the candidate returned bears the name of
the tier at position `max p1 p2`, and it is that tier whenever the candidates
are the tiers at positions `p1` and `p2` themselves. -/
theorem getBiggestEntry_later_position (tiers : List ConfigEntry)
    (byFiles byLines : ConfigEntry) (p1 p2 : Nat)
    (h1 : FirstAt tiers byFiles.Size p1) (h2 : FirstAt tiers byLines.Size p2) :
    getBiggestEntry tiers byFiles byLines = (if p2 ≤ p1 then byFiles else byLines) ∧
    (p1 = p2 → getBiggestEntry tiers byFiles byLines = byFiles) ∧
    (∃ t, tiers[max p1 p2]? = some t ∧
      (getBiggestEntry tiers byFiles byLines).Size = t.Size) ∧
    (tiers[p1]? = some byFiles → tiers[p2]? = some byLines →
      tiers[max p1 p2]? = some (getBiggestEntry tiers byFiles byLines)) := by
  have hres := getBiggestEntry_of_firstAt tiers byFiles byLines p1 p2 h1 h2
  obtain ⟨⟨t1, ht1, hn1⟩, _⟩ := h1
  obtain ⟨⟨t2, ht2, hn2⟩, _⟩ := h2
  refine ⟨hres, ?_, ?_, ?_⟩
  · intro h
    rw [hres, if_pos (le_of_eq h.symm)]
  · by_cases hle : p2 ≤ p1
    · exact ⟨t1, by rw [max_eq_left hle]; exact ht1, by rw [hres, if_pos hle, hn1]⟩
    · exact ⟨t2, by rw [max_eq_right (le_of_not_le hle)]; exact ht2,
        by rw [hres, if_neg hle, hn2]⟩
  · intro hf hl
    by_cases hle : p2 ≤ p1
    · rw [hres, if_pos hle, max_eq_left hle]; exact hf
    · rw [hres, if_neg hle, max_eq_right (le_of_not_le hle)]; exact hl

theorem getBiggestEntry_later_position_witness :
    getBiggestEntry testEntries ⟨"small", 10, 1, ["label1"]⟩ ⟨"large", 30, 3, ["label3"]⟩ =
      ⟨"large", 30, 3, ["label3"]⟩ :=
  (getBiggestEntry_later_position testEntries ⟨"small", 10, 1, ["label1"]⟩
    ⟨"large", 30, 3, ["label3"]⟩ 0 2
    ⟨⟨_, rfl, rfl⟩, by intro j t hj; omega⟩
    ⟨⟨_, rfl, rfl⟩, by
      intro j t hj h
      interval_cases j <;> simp [testEntries] at h <;> subst h <;> decide⟩).1

/-- C3, counterexample: in the tier list with the name "a" at positions 0 and
2, the candidates are the tiers at positions 2 and 0; both names are found at
position 0 by the first-match lookup, and the candidate `byFiles`, the tier at
position 2, is returned, which is not the tier at position `max 0 0`. -/
theorem getBiggestEntry_counterexample :
    repeatedNameConfig.LabelConfigs[2]? = some ⟨"a", 10, 10, ["size/c"]⟩ ∧
    repeatedNameConfig.LabelConfigs[0]? = some ⟨"a", 1, 1, ["size/a"]⟩ ∧
    FirstAt repeatedNameConfig.LabelConfigs (ConfigEntry.mk "a" 10 10 ["size/c"]).Size 0 ∧
    FirstAt repeatedNameConfig.LabelConfigs (ConfigEntry.mk "a" 1 1 ["size/a"]).Size 0 ∧
    getBiggestEntry repeatedNameConfig.LabelConfigs ⟨"a", 10, 10, ["size/c"]⟩
      ⟨"a", 1, 1, ["size/a"]⟩ = ⟨"a", 10, 10, ["size/c"]⟩ ∧
    repeatedNameConfig.LabelConfigs[max 0 0]? ≠
      some (getBiggestEntry repeatedNameConfig.LabelConfigs ⟨"a", 10, 10, ["size/c"]⟩
        ⟨"a", 1, 1, ["size/a"]⟩) := by
  refine ⟨rfl, rfl, ⟨⟨_, rfl, rfl⟩, by intro j t hj; omega⟩,
    ⟨⟨_, rfl, rfl⟩, by intro j t hj; omega⟩, by decide, by decide⟩

theorem getSizeLoop_mem (p : String) (n : Int) :
    ∀ (cfg : List ConfigEntry) (e : ConfigEntry), getSizeLoop cfg n p = some e → e ∈ cfg := by
  intro cfg
  induction cfg with
  | nil => intro e h; simp [getSizeLoop] at h
  | cons a rest ih =>
    intro e h
    by_cases ha : n ≤ entryValue a p
    · simp [getSizeLoop, ha] at h
      simp [h]
    · simp only [getSizeLoop, ha, if_false] at h
      exact List.mem_cons_of_mem _ (ih e h)

theorem getSize_mem (cfg : List ConfigEntry) (n : Int) (p : String) (hne : cfg ≠ []) :
    ∃ e, getSize cfg n p = .ok e ∧ e ∈ cfg := by
  cases hloop : getSizeLoop cfg n p with
  | some e => exact ⟨e, by simp [getSize, hloop], getSizeLoop_mem p n cfg e hloop⟩
  | none =>
    exact ⟨cfg.getLast hne, by simp [getSize, hloop, sliceIndex_last cfg hne],
      List.getLast_mem hne⟩

theorem position_unique_of_nodup_names (tiers : List ConfigEntry)
    (hnd : (tiers.map ConfigEntry.Size).Nodup) (i j : Nat) (a b : ConfigEntry)
    (hi : tiers[i]? = some a) (hj : tiers[j]? = some b) (hab : a.Size = b.Size) : i = j := by
  obtain ⟨hil, hia⟩ := List.getElem?_eq_some.mp hi
  obtain ⟨hjl, hjb⟩ := List.getElem?_eq_some.mp hj
  have hil' : i < (tiers.map ConfigEntry.Size).length := by simpa using hil
  have hjl' : j < (tiers.map ConfigEntry.Size).length := by simpa using hjl
  have heq : (tiers.map ConfigEntry.Size)[i] = (tiers.map ConfigEntry.Size)[j] := by
    simp [hia, hjb, hab]
  exact (List.Nodup.getElem_inj_iff hnd).mp heq

theorem firstAt_of_nodup_names (tiers : List ConfigEntry)
    (hnd : (tiers.map ConfigEntry.Size).Nodup) (i : Nat) (e : ConfigEntry)
    (hi : tiers[i]? = some e) : FirstAt tiers e.Size i := by
  refine ⟨⟨e, hi, rfl⟩, ?_⟩
  intro j t hj hjt hname
  have := position_unique_of_nodup_names tiers hnd j i t e hjt hi hname
  omega

/-- C2, as the code behaves: for a configuration with a non-empty tier list
whose tier names are pairwise distinct and every pair of counts, the winner
computed by `getBiggestEntry` from the two tiers that `getSize` resolves is
whichever of the two sits at the later position of the tier list, and the
file-count tier when both sit at the same position. -/
theorem biggestEntryOfCounts_later_position (config : Config)
    (numberOfFiles numberOfLines : Int) (hne : config.LabelConfigs ≠ [])
    (hnd : (config.LabelConfigs.map ConfigEntry.Size).Nodup) :
    ∃ (byFiles byLines : ConfigEntry) (i j : Nat),
      getSize config.LabelConfigs numberOfFiles "files" = .ok byFiles ∧
      getSize config.LabelConfigs numberOfLines "diff" = .ok byLines ∧
      config.LabelConfigs[i]? = some byFiles ∧ config.LabelConfigs[j]? = some byLines ∧
      (∀ k, config.LabelConfigs[k]? = some byFiles → k = i) ∧
      (∀ k, config.LabelConfigs[k]? = some byLines → k = j) ∧
      biggestEntryOfCounts numberOfFiles numberOfLines config =
        .ok (if j ≤ i then byFiles else byLines) := by
  obtain ⟨byFiles, hF, hFm⟩ := getSize_mem config.LabelConfigs numberOfFiles "files" hne
  obtain ⟨byLines, hL, hLm⟩ := getSize_mem config.LabelConfigs numberOfLines "diff" hne
  obtain ⟨i, hi⟩ := List.mem_iff_getElem?.mp hFm
  obtain ⟨j, hj⟩ := List.mem_iff_getElem?.mp hLm
  refine ⟨byFiles, byLines, i, j, hF, hL, hi, hj, ?_, ?_, ?_⟩
  · intro k hk
    exact position_unique_of_nodup_names _ hnd k i _ _ hk hi rfl
  · intro k hk
    exact position_unique_of_nodup_names _ hnd k j _ _ hk hj rfl
  · have hF' : getSize config.LabelConfigs numberOfFiles ParamNameFiles = .ok byFiles := hF
    have hL' : getSize config.LabelConfigs numberOfLines ParamNameDiff = .ok byLines := hL
    simp only [biggestEntryOfCounts, mapNumberOfChangesToSize, hF', hL']
    rw [getBiggestEntry_of_firstAt _ byFiles byLines i j
      (firstAt_of_nodup_names _ hnd i byFiles hi) (firstAt_of_nodup_names _ hnd j byLines hj)]

theorem biggestEntryOfCounts_later_position_witness :
    ∃ (byFiles byLines : ConfigEntry) (i j : Nat),
      getSize testTiers 15 "files" = .ok byFiles ∧
      getSize testTiers 35 "diff" = .ok byLines ∧
      testTiers[i]? = some byFiles ∧ testTiers[j]? = some byLines ∧
      (∀ k, testTiers[k]? = some byFiles → k = i) ∧
      (∀ k, testTiers[k]? = some byLines → k = j) ∧
      biggestEntryOfCounts 15 35 ⟨["exclude.*"], testTiers, false⟩ =
        .ok (if j ≤ i then byFiles else byLines) :=
  biggestEntryOfCounts_later_position ⟨["exclude.*"], testTiers, false⟩ 15 35
    (by decide) (by decide)

/-- C2, counterexample: with the tier name "a" used at positions 0 and 2, the
file count 8 resolves to the tier at position 2 and the line count 3 to the
tier at position 1, yet the winner is the tier at position 1. -/
theorem biggestEntryOfCounts_counterexample :
    getSize repeatedNameConfig.LabelConfigs 8 "files" = .ok ⟨"a", 10, 10, ["size/c"]⟩ ∧
    getSize repeatedNameConfig.LabelConfigs 3 "diff" = .ok ⟨"b", 5, 5, ["size/b"]⟩ ∧
    (∀ k, repeatedNameConfig.LabelConfigs[k]? = some ⟨"a", 10, 10, ["size/c"]⟩ ↔ k = 2) ∧
    (∀ k, repeatedNameConfig.LabelConfigs[k]? = some ⟨"b", 5, 5, ["size/b"]⟩ ↔ k = 1) ∧
    biggestEntryOfCounts 8 3 repeatedNameConfig = .ok ⟨"b", 5, 5, ["size/b"]⟩ := by
  refine ⟨by decide, by decide, ?_, ?_, by decide⟩
  · intro k
    constructor
    · intro h
      match k, h with
      | 0, h => simp [repeatedNameConfig] at h
      | 1, h => simp [repeatedNameConfig] at h
      | 2, _ => rfl
      | k + 3, h => simp [repeatedNameConfig] at h
    · intro h
      subst h
      rfl
  · intro k
    constructor
    · intro h
      match k, h with
      | 0, h => simp [repeatedNameConfig] at h
      | 1, _ => rfl
      | 2, h => simp [repeatedNameConfig] at h
      | k + 3, h => simp [repeatedNameConfig] at h
    · intro h
      subst h
      rfl

/-! ## Label reconciliation -/

theorem contains_iff (slice : List String) (item : String) :
    contains slice item = true ↔ item ∈ slice := by
  induction slice with
  | nil => simp [contains]
  | cons x rest ih =>
    by_cases h : x = item
    · simp [contains, h]
    · simp [contains, h, ih, Ne.symm h]

theorem isSizeLabel_iff (labelName : String) (labelConfigs : List ConfigEntry) :
    isSizeLabel labelName labelConfigs = true ↔ ∃ t ∈ labelConfigs, labelName ∈ t.Labels := by
  induction labelConfigs with
  | nil => simp [isSizeLabel]
  | cons a rest ih =>
    by_cases h : contains a.Labels labelName = true
    · simp [isSizeLabel, h, (contains_iff _ _).mp h]
    · have h' : labelName ∉ a.Labels := fun hm => h ((contains_iff _ _).mpr hm)
      simp [isSizeLabel, h, ih, h']

theorem labelExists_iff (pr : PullRequest) (labelName : String) :
    labelExists pr labelName = true ↔ labelName ∈ labelNames pr := by
  unfold labelExists labelNames
  induction pr.Labels with
  | nil => simp [labelExistsLoop]
  | cons a rest ih =>
    by_cases h : a.GetName = labelName
    · simp [labelExistsLoop, h]
    · simp [labelExistsLoop, h, ih, Ne.symm h]

theorem removedLabels_append (a b : List ApiCall) :
    removedLabels (a ++ b) = removedLabels a ++ removedLabels b := by
  induction a with
  | nil => rfl
  | cons c rest ih => cases c <;> simp [removedLabels, ih]

theorem addedLabels_append (a b : List ApiCall) :
    addedLabels (a ++ b) = addedLabels a ++ addedLabels b := by
  induction a with
  | nil => rfl
  | cons c rest ih => cases c <;> simp [addedLabels, ih]

theorem removedLabels_map_remove (xs : List String) :
    removedLabels (xs.map ApiCall.RemoveLabelForIssue) = xs := by
  induction xs with
  | nil => rfl
  | cons x rest ih => simp [removedLabels, ih]

theorem addedLabels_map_remove (xs : List String) :
    addedLabels (xs.map ApiCall.RemoveLabelForIssue) = [] := by
  induction xs with
  | nil => rfl
  | cons x rest ih => simp [addedLabels, ih]

theorem removedLabels_map_add (xs : List String) :
    removedLabels (xs.map (fun l => ApiCall.AddLabelsToIssue [l])) = [] := by
  induction xs with
  | nil => rfl
  | cons x rest ih => simp [removedLabels, ih]

theorem addedLabels_map_add (xs : List String) :
    addedLabels (xs.map (fun l => ApiCall.AddLabelsToIssue [l])) = xs := by
  induction xs with
  | nil => rfl
  | cons x rest ih => simp [addedLabels, ih]

/-- With an API that returns no error, the loop of `removeOtherSizeLabels`
issues one removal per label that passes the test of line 232, in order. -/
theorem removeOtherSizeLabelsLoop_ok (api : ApiErrors) (hapi : ∀ log c, api log c = false)
    (config : Config) (entry : ConfigEntry) :
    ∀ (labels : List Label) (log : List ApiCall),
      removeOtherSizeLabelsLoop api config entry labels log =
        (log ++ (((labels.map Label.GetName).filter (fun l =>
          isSizeLabel l config.LabelConfigs && !contains entry.Labels l)).map
            ApiCall.RemoveLabelForIssue), false) := by
  intro labels
  induction labels with
  | nil => intro log; simp [removeOtherSizeLabelsLoop]
  | cons a rest ih =>
    intro log
    by_cases h : isSizeLabel a.GetName config.LabelConfigs = true ∧
        contains entry.Labels a.GetName = false
    · simp only [removeOtherSizeLabelsLoop, h, and_self, if_true, hapi]
      rw [ih]
      simp [h.1, h.2]
    · simp only [removeOtherSizeLabelsLoop, h, if_false]
      rw [ih]
      have h' : (isSizeLabel a.GetName config.LabelConfigs &&
          !contains entry.Labels a.GetName) = false := by
        rcases Bool.eq_false_or_eq_true (isSizeLabel a.GetName config.LabelConfigs) with h1 | h1
        · rcases Bool.eq_false_or_eq_true (contains entry.Labels a.GetName) with h2 | h2
          · simp [h1, h2]
          · exact absurd ⟨h1, h2⟩ h
        · simp [h1]
      simp [List.filter_cons, h']

/-- With an API that returns no error, the loop over `entry.Labels` issues
one addition per label for which `labelExists` is false, in order. -/
theorem addLabelsLoop_ok (api : ApiErrors) (hapi : ∀ log c, api log c = false)
    (pr : PullRequest) :
    ∀ (labels : List String) (log : List ApiCall),
      addLabelsLoop api pr labels log =
        (log ++ ((labels.filter (fun l => !labelExists pr l)).map
          (fun l => ApiCall.AddLabelsToIssue [l])), false) := by
  intro labels
  induction labels with
  | nil => intro log; simp [addLabelsLoop]
  | cons a rest ih =>
    intro log
    by_cases h : labelExists pr a = false
    · simp only [addLabelsLoop, h, if_true, hapi]
      rw [ih]
      simp [h]
    · have h' : labelExists pr a = true := by simpa using h
      simp [addLabelsLoop, h', ih, List.filter_cons]

theorem updatePullRequestLabel_ok (api : ApiErrors) (hapi : ∀ log c, api log c = false)
    (pr : PullRequest) (config : Config) (entry : ConfigEntry) :
    updatePullRequestLabel api (some pr) config entry =
      ((((labelNames pr).filter (fun l =>
          isSizeLabel l config.LabelConfigs && !contains entry.Labels l)).map
            ApiCall.RemoveLabelForIssue) ++
        ((entry.Labels.filter (fun l => !labelExists pr l)).map
          (fun l => ApiCall.AddLabelsToIssue [l])), false) := by
  simp [updatePullRequestLabel, removeOtherSizeLabels, labelNames,
    removeOtherSizeLabelsLoop_ok api hapi, addLabelsLoop_ok api hapi]

theorem mem_removedLabels_update (api : ApiErrors) (hapi : ∀ log c, api log c = false)
    (pr : PullRequest) (config : Config) (entry : ConfigEntry) (l : String) :
    l ∈ removedLabels (updatePullRequestLabel api (some pr) config entry).1 ↔
      l ∈ labelNames pr ∧ (∃ t ∈ config.LabelConfigs, l ∈ t.Labels) ∧ l ∉ entry.Labels := by
  rw [updatePullRequestLabel_ok api hapi]
  simp only [removedLabels_append, removedLabels_map_remove, removedLabels_map_add,
    List.append_nil, List.mem_filter, Bool.and_eq_true, Bool.not_eq_true', isSizeLabel_iff]
  have : contains entry.Labels l = false ↔ l ∉ entry.Labels := by
    rw [← contains_iff]; simp
  rw [this]

theorem mem_addedLabels_update (api : ApiErrors) (hapi : ∀ log c, api log c = false)
    (pr : PullRequest) (config : Config) (entry : ConfigEntry) (l : String) :
    l ∈ addedLabels (updatePullRequestLabel api (some pr) config entry).1 ↔
      l ∈ entry.Labels ∧ l ∉ labelNames pr := by
  rw [updatePullRequestLabel_ok api hapi]
  simp only [addedLabels_append, addedLabels_map_remove, addedLabels_map_add,
    List.nil_append, List.mem_filter, Bool.not_eq_true']
  have : labelExists pr l = false ↔ l ∉ labelNames pr := by
    rw [← labelExists_iff]; simp
  rw [this]

/-- Whatever the API answers, the removals issued are an initial part of the
removals of the labels that pass the test of line 232, and all of them when no
error is returned. -/
theorem removeOtherSizeLabelsLoop_issued (api : ApiErrors) (config : Config)
    (entry : ConfigEntry) :
    ∀ (labels : List Label) (log : List ApiCall),
      ∃ issued : List String,
        (removeOtherSizeLabelsLoop api config entry labels log).1 =
          log ++ issued.map ApiCall.RemoveLabelForIssue ∧
        issued <+: (labels.map Label.GetName).filter (fun l =>
          isSizeLabel l config.LabelConfigs && !contains entry.Labels l) ∧
        ((removeOtherSizeLabelsLoop api config entry labels log).2 = false →
          issued = (labels.map Label.GetName).filter (fun l =>
            isSizeLabel l config.LabelConfigs && !contains entry.Labels l)) := by
  intro labels
  induction labels with
  | nil => intro log; exact ⟨[], by simp [removeOtherSizeLabelsLoop]⟩
  | cons a rest ih =>
    intro log
    by_cases h : isSizeLabel a.GetName config.LabelConfigs = true ∧
        contains entry.Labels a.GetName = false
    · have hsel : (isSizeLabel a.GetName config.LabelConfigs &&
          !contains entry.Labels a.GetName) = true := by simp [h.1, h.2]
      by_cases herr : api log (ApiCall.RemoveLabelForIssue a.GetName) = true
      · refine ⟨[a.GetName], ?_, ?_, ?_⟩
        · simp [removeOtherSizeLabelsLoop, h, herr]
        · simp only [List.map_cons, List.filter_cons, hsel, if_true]
          exact (List.prefix_cons_inj _).mpr (List.nil_prefix)
        · simp [removeOtherSizeLabelsLoop, h, herr]
      · obtain ⟨issued, h1, h2, h3⟩ := ih (log ++ [ApiCall.RemoveLabelForIssue a.GetName])
        refine ⟨a.GetName :: issued, ?_, ?_, ?_⟩
        · simp only [removeOtherSizeLabelsLoop, h, and_self, if_true, herr]
          simp [h1]
        · simp only [List.map_cons, List.filter_cons, hsel, if_true]
          exact (List.prefix_cons_inj _).mpr h2
        · simp only [removeOtherSizeLabelsLoop, h, and_self, if_true, herr]
          intro hok
          simp only [List.map_cons, List.filter_cons, hsel, if_true]
          rw [h3 (by simpa using hok)]
    · have hsel : (isSizeLabel a.GetName config.LabelConfigs &&
          !contains entry.Labels a.GetName) = false := by
        rcases Bool.eq_false_or_eq_true (isSizeLabel a.GetName config.LabelConfigs) with h1 | h1
        · rcases Bool.eq_false_or_eq_true (contains entry.Labels a.GetName) with h2 | h2
          · simp [h1, h2]
          · exact absurd ⟨h1, h2⟩ h
        · simp [h1]
      obtain ⟨issued, h1, h2, h3⟩ := ih log
      refine ⟨issued, ?_, ?_, ?_⟩
      · simp only [removeOtherSizeLabelsLoop, h, if_false]
        exact h1
      · simp only [List.map_cons, List.filter_cons, hsel]
        exact h2
      · simp only [removeOtherSizeLabelsLoop, h, if_false]
        intro hok
        simp only [List.map_cons, List.filter_cons, hsel]
        exact h3 hok

/-- Whatever the API answers, the additions issued are an initial part of the
additions of the labels for which `labelExists` is false, and all of them when
no error is returned. -/
theorem addLabelsLoop_issued (api : ApiErrors) (pr : PullRequest) :
    ∀ (labels : List String) (log : List ApiCall),
      ∃ issued : List String,
        (addLabelsLoop api pr labels log).1 =
          log ++ issued.map (fun l => ApiCall.AddLabelsToIssue [l]) ∧
        issued <+: labels.filter (fun l => !labelExists pr l) ∧
        ((addLabelsLoop api pr labels log).2 = false →
          issued = labels.filter (fun l => !labelExists pr l)) := by
  intro labels
  induction labels with
  | nil => intro log; exact ⟨[], by simp [addLabelsLoop]⟩
  | cons a rest ih =>
    intro log
    by_cases h : labelExists pr a = false
    · have hsel : (!labelExists pr a) = true := by simp [h]
      by_cases herr : api log (ApiCall.AddLabelsToIssue [a]) = true
      · refine ⟨[a], ?_, ?_, ?_⟩
        · simp [addLabelsLoop, h, herr]
        · simp only [List.filter_cons, hsel, if_true]
          exact (List.prefix_cons_inj _).mpr (List.nil_prefix)
        · simp [addLabelsLoop, h, herr]
      · obtain ⟨issued, h1, h2, h3⟩ := ih (log ++ [ApiCall.AddLabelsToIssue [a]])
        refine ⟨a :: issued, ?_, ?_, ?_⟩
        · simp only [addLabelsLoop, h, if_true, herr]
          simp [h1]
        · simp only [List.filter_cons, hsel, if_true]
          exact (List.prefix_cons_inj _).mpr h2
        · simp only [addLabelsLoop, h, if_true, herr]
          intro hok
          simp only [List.filter_cons, hsel, if_true]
          rw [h3 (by simpa using hok)]
    · have h' : labelExists pr a = true := by simpa using h
      have hsel : (!labelExists pr a) = false := by simp [h']
      obtain ⟨issued, h1, h2, h3⟩ := ih log
      refine ⟨issued, ?_, ?_, ?_⟩
      · simpa [addLabelsLoop, h'] using h1
      · simp only [List.filter_cons, hsel]
        exact h2
      · intro hok
        simp only [List.filter_cons, hsel]
        exact h3 (by simpa [addLabelsLoop, h'] using hok)

/-- C4: with the API answering every call, the calls issued by
`removeOtherSizeLabels` are the removals of exactly the current labels that
appear in the label list of at least one configured tier and do not appear
in the winning tier's label list, in the order of the current labels; a
current label that belongs to no configured tier is never removed. -/
theorem removeOtherSizeLabels_selection (api : ApiErrors)
    (hapi : ∀ log c, api log c = false) (pr : PullRequest) (config : Config)
    (entry : ConfigEntry) :
    removeOtherSizeLabels api pr config entry [] =
      (((labelNames pr).filter (fun l =>
          decide ((∃ t ∈ config.LabelConfigs, l ∈ t.Labels) ∧ l ∉ entry.Labels))).map
        ApiCall.RemoveLabelForIssue, false) ∧
    (∀ l, l ∈ removedLabels (removeOtherSizeLabels api pr config entry []).1 ↔
      l ∈ labelNames pr ∧ (∃ t ∈ config.LabelConfigs, l ∈ t.Labels) ∧ l ∉ entry.Labels) ∧
    (∀ l, (∀ t ∈ config.LabelConfigs, l ∉ t.Labels) →
      l ∉ removedLabels (removeOtherSizeLabels api pr config entry []).1) := by
  have hsel : ∀ l : String,
      (isSizeLabel l config.LabelConfigs && !contains entry.Labels l) =
        decide ((∃ t ∈ config.LabelConfigs, l ∈ t.Labels) ∧ l ∉ entry.Labels) := by
    intro l
    rw [Bool.eq_iff_iff]
    simp only [Bool.and_eq_true, Bool.not_eq_true', decide_eq_true_eq, isSizeLabel_iff]
    have : contains entry.Labels l = false ↔ l ∉ entry.Labels := by
      rw [← contains_iff]; simp
    rw [this]
  have hrun : removeOtherSizeLabels api pr config entry [] =
      (((labelNames pr).filter (fun l =>
          decide ((∃ t ∈ config.LabelConfigs, l ∈ t.Labels) ∧ l ∉ entry.Labels))).map
        ApiCall.RemoveLabelForIssue, false) := by
    simp only [removeOtherSizeLabels, removeOtherSizeLabelsLoop_ok api hapi, labelNames,
      List.nil_append, hsel]
  have hmem : ∀ l, l ∈ removedLabels (removeOtherSizeLabels api pr config entry []).1 ↔
      l ∈ labelNames pr ∧ (∃ t ∈ config.LabelConfigs, l ∈ t.Labels) ∧ l ∉ entry.Labels := by
    intro l
    rw [hrun]
    simp only [removedLabels_map_remove, List.mem_filter, decide_eq_true_eq]
  refine ⟨hrun, hmem, ?_⟩
  intro l hno hl
  obtain ⟨_, ⟨t, ht, hlt⟩, _⟩ := (hmem l).mp hl
  exact hno t ht hlt

theorem removeOtherSizeLabels_selection_witness :
    removeOtherSizeLabels apiOk (mockPullRequest ["size/m", "bug"]) testConfig tierL [] =
      ([ApiCall.RemoveLabelForIssue "size/m"], false) :=
  (removeOtherSizeLabels_selection apiOk (fun _ _ => rfl) (mockPullRequest ["size/m", "bug"])
    testConfig tierL).1.trans (by decide)

/-- C5: with the API answering every call, the labels that
`updatePullRequestLabel` adds are exactly the labels of the winning tier's
label list for which `labelExists` is false on the pull request, in the order
of that list; these are the winning-tier labels not among the current
labels. -/
theorem updatePullRequestLabel_additions (api : ApiErrors)
    (hapi : ∀ log c, api log c = false) (pr : PullRequest) (config : Config)
    (entry : ConfigEntry) :
    addedLabels (updatePullRequestLabel api (some pr) config entry).1 =
      entry.Labels.filter (fun l => !labelExists pr l) ∧
    (∀ l, labelExists pr l = false ↔ l ∉ labelNames pr) ∧
    (∀ l, l ∈ addedLabels (updatePullRequestLabel api (some pr) config entry).1 ↔
      l ∈ entry.Labels ∧ l ∉ labelNames pr) := by
  refine ⟨?_, ?_, ?_⟩
  · rw [updatePullRequestLabel_ok api hapi]
    simp only [addedLabels_append, addedLabels_map_remove, addedLabels_map_add,
      List.nil_append]
  · intro l
    rw [← labelExists_iff]; simp
  · exact mem_addedLabels_update api hapi pr config entry

theorem updatePullRequestLabel_additions_witness :
    addedLabels (updatePullRequestLabel apiOk (some (mockPullRequest ["size/m", "bug"]))
      testConfig tierL).1 = ["size/l"] :=
  (updatePullRequestLabel_additions apiOk (fun _ _ => rfl) (mockPullRequest ["size/m", "bug"])
    testConfig tierL).1.trans (by decide)

/-- The labels left after the removals and additions of one run. -/
theorem mem_applied_iff (api : ApiErrors) (hapi : ∀ log c, api log c = false)
    (pr : PullRequest) (config : Config) (entry : ConfigEntry) (x : String) :
    ((x ∈ labelNames pr ∧
        x ∉ removedLabels (updatePullRequestLabel api (some pr) config entry).1) ∨
      x ∈ addedLabels (updatePullRequestLabel api (some pr) config entry).1) ↔
    (x ∈ entry.Labels ∨ (x ∈ labelNames pr ∧ ∀ t ∈ config.LabelConfigs, x ∉ t.Labels)) := by
  rw [mem_removedLabels_update api hapi, mem_addedLabels_update api hapi]
  constructor
  · rintro (⟨hc, hnr⟩ | ⟨hw, _⟩)
    · by_cases hw : x ∈ entry.Labels
      · exact Or.inl hw
      · exact Or.inr ⟨hc, fun t ht hxt => hnr ⟨hc, ⟨t, ht, hxt⟩, hw⟩⟩
    · exact Or.inl hw
  · rintro (hw | ⟨hc, hns⟩)
    · by_cases hc : x ∈ labelNames pr
      · exact Or.inl ⟨hc, fun h => h.2.2 hw⟩
      · exact Or.inr ⟨hw, hc⟩
    · exact Or.inl ⟨hc, fun h => by
        obtain ⟨_, ⟨t, ht, hxt⟩, _⟩ := h
        exact hns t ht hxt⟩

theorem removeOtherSizeLabelsLoop_none (api : ApiErrors) (config : Config)
    (entry : ConfigEntry) :
    ∀ (labels : List Label) (log : List ApiCall),
      (∀ label ∈ labels, ¬ (isSizeLabel label.GetName config.LabelConfigs = true ∧
        contains entry.Labels label.GetName = false)) →
      removeOtherSizeLabelsLoop api config entry labels log = (log, false) := by
  intro labels
  induction labels with
  | nil => intro log _; rfl
  | cons a rest ih =>
    intro log h
    have ha := h a (by simp)
    simp only [removeOtherSizeLabelsLoop, ha, if_false]
    exact ih log (fun l hl => h l (by simp [hl]))

theorem addLabelsLoop_none (api : ApiErrors) (pr : PullRequest) :
    ∀ (labels : List String) (log : List ApiCall),
      (∀ l ∈ labels, labelExists pr l = true) → addLabelsLoop api pr labels log = (log, false) := by
  intro labels
  induction labels with
  | nil => intro log _; rfl
  | cons a rest ih =>
    intro log h
    have ha := h a (by simp)
    simp [addLabelsLoop, ha]
    exact ih log (fun l hl => h l (by simp [hl]))

/-- C6: with `toRemove` and `toAdd` the labels that `updatePullRequestLabel`
removes and adds, the label set (current minus `toRemove`) plus `toAdd` is
the winning tier's label set together with the current labels that belong to
no configured tier; `toAdd` and `toRemove` are disjoint, and adding first and
removing afterwards gives the same set. -/
theorem reconciliation_converges (api : ApiErrors) (hapi : ∀ log c, api log c = false)
    (pr : PullRequest) (config : Config) (entry : ConfigEntry) :
    (∀ x, ((x ∈ labelNames pr ∧
          x ∉ removedLabels (updatePullRequestLabel api (some pr) config entry).1) ∨
        x ∈ addedLabels (updatePullRequestLabel api (some pr) config entry).1) ↔
      (x ∈ entry.Labels ∨ (x ∈ labelNames pr ∧ ∀ t ∈ config.LabelConfigs, x ∉ t.Labels))) ∧
    (∀ x, ¬ (x ∈ addedLabels (updatePullRequestLabel api (some pr) config entry).1 ∧
        x ∈ removedLabels (updatePullRequestLabel api (some pr) config entry).1)) ∧
    (∀ x, ((x ∈ labelNames pr ∨
          x ∈ addedLabels (updatePullRequestLabel api (some pr) config entry).1) ∧
        x ∉ removedLabels (updatePullRequestLabel api (some pr) config entry).1) ↔
      (x ∈ entry.Labels ∨ (x ∈ labelNames pr ∧ ∀ t ∈ config.LabelConfigs, x ∉ t.Labels))) := by
  have hdisj : ∀ x,
      ¬ (x ∈ addedLabels (updatePullRequestLabel api (some pr) config entry).1 ∧
        x ∈ removedLabels (updatePullRequestLabel api (some pr) config entry).1) := by
    intro x
    rw [mem_removedLabels_update api hapi, mem_addedLabels_update api hapi]
    tauto
  refine ⟨mem_applied_iff api hapi pr config entry, hdisj, ?_⟩
  intro x
  rw [← mem_applied_iff api hapi pr config entry x]
  have := hdisj x
  tauto

theorem reconciliation_converges_witness :
    (("bug" ∈ labelNames (mockPullRequest ["size/m", "bug"]) ∧
        "bug" ∉ removedLabels (updatePullRequestLabel apiOk
          (some (mockPullRequest ["size/m", "bug"])) testConfig tierL).1) ∨
      "bug" ∈ addedLabels (updatePullRequestLabel apiOk
        (some (mockPullRequest ["size/m", "bug"])) testConfig tierL).1) ∧
    ¬ ("size/l" ∈ addedLabels (updatePullRequestLabel apiOk
          (some (mockPullRequest ["size/m", "bug"])) testConfig tierL).1 ∧
        "size/l" ∈ removedLabels (updatePullRequestLabel apiOk
          (some (mockPullRequest ["size/m", "bug"])) testConfig tierL).1) :=
  ⟨((reconciliation_converges apiOk (fun _ _ => rfl) (mockPullRequest ["size/m", "bug"])
      testConfig tierL).1 "bug").mpr (Or.inr ⟨by decide, by decide⟩),
   (reconciliation_converges apiOk (fun _ _ => rfl) (mockPullRequest ["size/m", "bug"])
      testConfig tierL).2.1 "size/l"⟩

/-- C7: reconciliation is idempotent. When the labels of the pull request
are the current labels with the labels removed by `updatePullRequestLabel`
taken away and the labels it added put in, a second run with the same
configuration and winning tier issues no removal and no addition, and
returns no error. -/
theorem reconciliation_idempotent (api api2 : ApiErrors)
    (hapi : ∀ log c, api log c = false) (pr pr2 : PullRequest) (config : Config)
    (entry : ConfigEntry)
    (happlied : ∀ x, x ∈ labelNames pr2 ↔
      ((x ∈ labelNames pr ∧
          x ∉ removedLabels (updatePullRequestLabel api (some pr) config entry).1) ∨
        x ∈ addedLabels (updatePullRequestLabel api (some pr) config entry).1)) :
    updatePullRequestLabel api2 (some pr2) config entry = ([], false) := by
  have hnow : ∀ x, x ∈ labelNames pr2 ↔
      (x ∈ entry.Labels ∨ (x ∈ labelNames pr ∧ ∀ t ∈ config.LabelConfigs, x ∉ t.Labels)) :=
    fun x => (happlied x).trans (mem_applied_iff api hapi pr config entry x)
  have hrem : removeOtherSizeLabelsLoop api2 config entry pr2.Labels [] = ([], false) := by
    apply removeOtherSizeLabelsLoop_none
    rintro label hl ⟨hsize, hnot⟩
    have hmem : label.GetName ∈ labelNames pr2 := List.mem_map_of_mem _ hl
    have hnw : label.GetName ∉ entry.Labels := by
      intro hw
      rw [(contains_iff _ _).mpr hw] at hnot
      exact absurd hnot (by decide)
    rcases (hnow _).mp hmem with hw | ⟨_, hns⟩
    · exact hnw hw
    · obtain ⟨t, ht, hlt⟩ := (isSizeLabel_iff _ _).mp hsize
      exact hns t ht hlt
  have hadd : addLabelsLoop api2 pr2 entry.Labels [] = ([], false) := by
    apply addLabelsLoop_none
    intro l hl
    exact (labelExists_iff pr2 l).mpr ((hnow l).mpr (Or.inl hl))
  simp [updatePullRequestLabel, removeOtherSizeLabels, hrem, hadd]

theorem reconciliation_idempotent_witness :
    updatePullRequestLabel apiOk (some (mockPullRequest ["bug", "size/l"])) testConfig tierL =
      ([], false) :=
  reconciliation_idempotent apiOk apiOk (fun _ _ => rfl) (mockPullRequest ["size/m", "bug"])
    (mockPullRequest ["bug", "size/l"]) testConfig tierL (by
      have hlog : (updatePullRequestLabel apiOk (some (mockPullRequest ["size/m", "bug"]))
          testConfig tierL).1 =
          [ApiCall.RemoveLabelForIssue "size/m", ApiCall.AddLabelsToIssue ["size/l"]] := by
        decide
      intro x
      rw [hlog]
      simp only [labelNames, mockPullRequest, Label.GetName, removedLabels, addedLabels,
        List.map_cons, List.map_nil, Option.getD_some, List.mem_cons, List.mem_singleton,
        List.not_mem_nil, or_false, List.append_nil]
      constructor
      · rintro (h | h)
        · exact Or.inl ⟨Or.inr h, by rw [h]; decide⟩
        · exact Or.inr h
      · rintro (⟨h1 | h1, h2⟩ | h)
        · exact absurd h1 h2
        · exact Or.inl h1
        · exact Or.inr h)

/-! ## Aggregation -/

theorem wrapInt_add_left (a b : Int) : wrapInt (wrapInt a + b) = wrapInt (a + b) := by
  unfold wrapInt
  omega

theorem wrapInt_of_range (x : Int) (hlo : -9223372036854775808 ≤ x)
    (hhi : x < 9223372036854775808) : wrapInt x = x := by
  unfold wrapInt
  omega

theorem wrapInt_range (x : Int) :
    -9223372036854775808 ≤ wrapInt x ∧ wrapInt x < 9223372036854775808 := by
  unfold wrapInt
  omega

/-- The file loop adds, to the counts it starts from, the number of kept
records and the sum of their counted lines, in the arithmetic of Go's `int`. -/
theorem calculateSizeAndDiffLoop_eq (config : Config) :
    ∀ (files : List CommitFile) (a b : Int),
      calculateSizeAndDiffLoop config files (wrapInt a, wrapInt b) =
        (wrapInt (a + ((files.filter (keptRecord config)).length : Int)),
         wrapInt (b + ((files.filter (keptRecord config)).map (countedLines config)).sum)) := by
  intro files
  induction files with
  | nil => intro a b; simp [calculateSizeAndDiffLoop]
  | cons f rest ih =>
    intro a b
    by_cases hrem : config.AddedLinesOnly = true ∧ f.GetStatus = "removed"
    · have hk : keptRecord config f = false := by simp [keptRecord, hrem]
      simp only [calculateSizeAndDiffLoop, hrem, and_self, if_true, ih, List.filter_cons, hk]
      simp
    · by_cases hex : shouldExcludeFile f.GetFilename config.ExcludeFiles = true
      · have hk : keptRecord config f = false := by simp [keptRecord, hex]
        simp only [calculateSizeAndDiffLoop, hrem, if_false, hex, Bool.not_true, ih,
          List.filter_cons, hk]
        simp
      · have hex' : shouldExcludeFile f.GetFilename config.ExcludeFiles = false := by
          simpa using hex
        have hk : keptRecord config f = true := by simp [keptRecord, hrem, hex']
        by_cases hadd : config.AddedLinesOnly = true
        · have hstat : ¬ f.GetStatus = "removed" := fun h => hrem ⟨hadd, h⟩
          simp only [calculateSizeAndDiffLoop, hadd, hstat, and_false, if_false, hex',
            Bool.not_false, if_true, wrapInt_add_left, ih, List.filter_cons, hk, countedLines,
            List.map_cons, List.sum_cons, List.length_cons]
          refine Prod.ext ?_ ?_ <;> simp <;> ring_nf
        · have hadd' : config.AddedLinesOnly = false := by simpa using hadd
          have hft : ¬ (false = true) := by decide
          simp only [calculateSizeAndDiffLoop, hadd', hft, false_and, if_false, hex',
            Bool.not_false, if_true, wrapInt_add_left, ih, List.filter_cons, hk, countedLines,
            List.map_cons, List.sum_cons, List.length_cons]
          refine Prod.ext ?_ ?_ <;> simp <;> ring_nf

/-- The result of `calculateSizeAndDiff`: the number of kept records and the
sum of their counted lines, each wrapped into the range of Go's `int`. -/
theorem calculateSizeAndDiff_eq (files : List CommitFile) (config : Config) :
    calculateSizeAndDiff files config =
      (wrapInt ((files.filter (keptRecord config)).length : Int),
       wrapInt ((files.filter (keptRecord config)).map (countedLines config)).sum) := by
  have h := calculateSizeAndDiffLoop_eq config files 0 0
  simp only [zero_add] at h
  exact h

/-- C8, as the code behaves: `calculateSizeAndDiff` returns the number of kept
records and the sum over the kept records of their additions (when
`AddedLinesOnly` is true) or total changes (when it is false), both in the
arithmetic of Go's 64-bit `int`, that is wrapped into `[-2^63, 2^63)`; they
are the exact number and the exact sum whenever these lie in that range. A
record is kept exactly when it is not the case that `AddedLinesOnly` is true
and its status is "removed", and its filename is not excluded by
`shouldExcludeFile`; a record with an excluded filename contributes nothing to
either count. -/
theorem calculateSizeAndDiff_counts (files : List CommitFile) (config : Config) :
    calculateSizeAndDiff files config =
      (wrapInt ((files.filter (fun file =>
          decide (¬ (config.AddedLinesOnly = true ∧ file.GetStatus = "removed") ∧
            shouldExcludeFile file.GetFilename config.ExcludeFiles = false))).length : Int),
       wrapInt ((files.filter (fun file =>
          decide (¬ (config.AddedLinesOnly = true ∧ file.GetStatus = "removed") ∧
            shouldExcludeFile file.GetFilename config.ExcludeFiles = false))).map
          (fun file =>
            if config.AddedLinesOnly then file.GetAdditions else file.GetChanges)).sum) ∧
    (((files.filter (fun file =>
          decide (¬ (config.AddedLinesOnly = true ∧ file.GetStatus = "removed") ∧
            shouldExcludeFile file.GetFilename config.ExcludeFiles = false))).length : Int) <
        9223372036854775808 →
      (calculateSizeAndDiff files config).1 =
        ((files.filter (fun file =>
          decide (¬ (config.AddedLinesOnly = true ∧ file.GetStatus = "removed") ∧
            shouldExcludeFile file.GetFilename config.ExcludeFiles = false))).length : Int)) ∧
    (-9223372036854775808 ≤ ((files.filter (fun file =>
          decide (¬ (config.AddedLinesOnly = true ∧ file.GetStatus = "removed") ∧
            shouldExcludeFile file.GetFilename config.ExcludeFiles = false))).map
          (fun file =>
            if config.AddedLinesOnly then file.GetAdditions else file.GetChanges)).sum →
      ((files.filter (fun file =>
          decide (¬ (config.AddedLinesOnly = true ∧ file.GetStatus = "removed") ∧
            shouldExcludeFile file.GetFilename config.ExcludeFiles = false))).map
          (fun file =>
            if config.AddedLinesOnly then file.GetAdditions else file.GetChanges)).sum <
        9223372036854775808 →
      (calculateSizeAndDiff files config).2 =
        ((files.filter (fun file =>
          decide (¬ (config.AddedLinesOnly = true ∧ file.GetStatus = "removed") ∧
            shouldExcludeFile file.GetFilename config.ExcludeFiles = false))).map
          (fun file =>
            if config.AddedLinesOnly then file.GetAdditions else file.GetChanges)).sum) ∧
    (∀ (before after : List CommitFile) (file : CommitFile),
      shouldExcludeFile file.GetFilename config.ExcludeFiles = true →
      calculateSizeAndDiff (before ++ file :: after) config =
        calculateSizeAndDiff (before ++ after) config) := by
  have h := calculateSizeAndDiff_eq files config
  refine ⟨h, ?_, ?_, ?_⟩
  · intro hlt
    rw [h]
    exact wrapInt_of_range _ (by
      have : (0 : Int) ≤ ((files.filter (keptRecord config)).length : Int) :=
        Int.natCast_nonneg _
      omega) hlt
  · intro hlo hhi
    rw [h]
    exact wrapInt_of_range _ hlo hhi
  · intro before after file hex
    have hk : keptRecord config file = false := by simp [keptRecord, hex]
    simp only [calculateSizeAndDiff_eq, List.filter_append, List.filter_cons, hk]
    simp

/-- C8, counterexample: two kept records with 2^62 changes each; the exact
sum of their changes is 2^63, and `calculateSizeAndDiff` returns -2^63 for the
lines. -/
theorem calculateSizeAndDiff_counterexample :
    calculateSizeAndDiff [mockCommitFile "a.go" hugeChanges, mockCommitFile "b.go" hugeChanges]
      testConfig = (2, -9223372036854775808) ∧
    ([mockCommitFile "a.go" hugeChanges, mockCommitFile "b.go" hugeChanges].filter
      (fun file => decide (¬ (testConfig.AddedLinesOnly = true ∧ file.GetStatus = "removed") ∧
        shouldExcludeFile file.GetFilename testConfig.ExcludeFiles = false))).length = 2 ∧
    (([mockCommitFile "a.go" hugeChanges, mockCommitFile "b.go" hugeChanges].filter
      (fun file => decide (¬ (testConfig.AddedLinesOnly = true ∧ file.GetStatus = "removed") ∧
        shouldExcludeFile file.GetFilename testConfig.ExcludeFiles = false))).map
      (fun file => if testConfig.AddedLinesOnly then file.GetAdditions else file.GetChanges)).sum =
      9223372036854775808 := by
  refine ⟨by decide, by decide, by decide⟩

/-! ## `filepath.Match`: errors and step bounds -/

/-- The parse of a character class consumes the same part of the chunk and
fails on the same chunks whatever the rune. -/
theorem matchClass_rest_indep :
    ∀ (fuel : Nat) (chunk : List Nat) (r r2 : Nat) (m m2 : Bool) (n : Nat),
      classRest (matchClass fuel chunk r m n) = classRest (matchClass fuel chunk r2 m2 n) := by
  intro fuel
  induction fuel with
  | zero => intro chunk r r2 m m2 n; rfl
  | succ k ih =>
    intro chunk r r2 m m2 n
    unfold matchClass
    by_cases hclose : chunk.head? = some 93 ∧ n > 0
    · simp only [hclose, and_self, if_true, classRest]
    · simp only [hclose, if_false]
      cases hlo : getEsc chunk with
      | error e => simp only [classRest]
      | ok lo =>
        obtain ⟨lo, chunk1⟩ := lo
        simp only
        by_cases hdash : chunk1.head? = some 45
        · simp only [hdash, if_true]
          cases hhi : getEsc chunk1.tail with
          | error e => simp only [classRest]
          | ok hi =>
            obtain ⟨hi, chunk2⟩ := hi
            simp only
            exact ih chunk2 r r2 _ _ (n + 1)
        · simp only [hdash, if_false]
          exact ih chunk1 r r2 _ _ (n + 1)

/-- The error of `matchChunk` does not depend on the string matched: after a
failed match the loop keeps checking the chunk. -/
theorem matchChunkLoop_err_indep :
    ∀ (fuel : Nat) (chunk s : List Nat) (f : Bool),
      errOf (matchChunkLoop fuel chunk s f) = errOf (matchChunkLoop fuel chunk [] true) := by
  intro fuel
  induction fuel with
  | zero => intro chunk s f; rfl
  | succ k ih =>
    intro chunk s f
    cases chunk with
    | nil =>
      simp only [matchChunkLoop]
      cases f <;> rfl
    | cons c chunk1 =>
      simp only [matchChunkLoop]
      by_cases h91 : c = 91
      · simp only [h91, if_true]
        have h := matchClass_rest_indep
          ((if chunk1.head? = some 94 then chunk1.tail else chunk1).length + 1)
          (if chunk1.head? = some 94 then chunk1.tail else chunk1)
          (if (f || s.isEmpty) = true then (0, 0) else DecodeRuneInString s).1
          (if (true || ([] : List Nat).isEmpty) = true then (0, 0)
            else DecodeRuneInString []).1 false false 0
        revert h
        generalize matchClass _ _ (if (f || s.isEmpty) = true then (0, 0)
          else DecodeRuneInString s).1 false 0 = A
        generalize matchClass _ _ (if (true || ([] : List Nat).isEmpty) = true then (0, 0)
            else DecodeRuneInString []).1 false 0 = B
        intro h
        cases A with
        | error e =>
          cases B with
          | error e2 => simp only [classRest, Except.error.injEq] at h; rw [h]
          | ok b => simp [classRest] at h
        | ok a =>
          cases B with
          | error e2 => simp [classRest] at h
          | ok b =>
            obtain ⟨ma, ca⟩ := a
            obtain ⟨mb, cb⟩ := b
            simp only [classRest, Except.ok.injEq] at h
            subst h
            exact (ih _ _ _).trans (ih _ _ _).symm
      · simp only [h91, if_false]
        by_cases h63 : c = 63
        · simp only [h63, if_true]
          have hB : (true || ([] : List Nat).isEmpty) = true := rfl
          simp only [hB, if_true]
          by_cases hf : (f || s.isEmpty) = true
          · simp only [hf, if_true]
            exact ih _ _ _
          · simp only [hf]
            exact ih _ _ _
        · simp only [h63, if_false]
          by_cases h92 : c = 92
          · simp only [h92, if_true]
            cases chunk1 with
            | nil => rfl
            | cons c1 chunk2 =>
              have hB : (true || ([] : List Nat).isEmpty) = true := rfl
              simp only [hB, if_true]
              by_cases hf : (f || s.isEmpty) = true
              · simp only [hf, if_true]
                exact ih _ _ _
              · simp only [hf]
                exact ih _ _ _
          · simp only [h92, if_false]
            have hB : (true || ([] : List Nat).isEmpty) = true := rfl
            simp only [hB, if_true]
            by_cases hf : (f || s.isEmpty) = true
            · simp only [hf, if_true]
              exact ih _ _ _
            · simp only [hf]
              exact ih _ _ _

theorem decodeRune_width_pos (c : Nat) (t : List Nat) :
    1 ≤ (DecodeRuneInString (c :: t)).2 := by
  simp only [DecodeRuneInString]
  repeat' split
  all_goals simp

theorem getEsc_length (chunk : List Nat) (r : Nat) (rest : List Nat)
    (h : getEsc chunk = .ok (r, rest)) : rest ≠ [] ∧ rest.length < chunk.length := by
  cases chunk with
  | nil => simp [getEsc] at h
  | cons c t =>
    simp only [getEsc] at h
    by_cases h1 : c = 45 ∨ c = 93
    · simp [h1] at h
    · by_cases h2 : c = 92 ∧ t = []
      · simp [h1, h2] at h
      · simp only [h1, h2, if_false] at h
        by_cases h92 : c = 92
        · simp only [h92, if_true] at h
          by_cases h3 : ((DecodeRuneInString t).1 = RuneError ∧ (DecodeRuneInString t).2 = 1) ∨
              List.drop (DecodeRuneInString t).2 t = []
          · rw [if_pos h3] at h; cases h
          · rw [if_neg h3] at h
            simp only [Except.ok.injEq, Prod.mk.injEq] at h
            obtain ⟨_, hrest⟩ := h
            subst hrest
            push_neg at h3
            refine ⟨h3.2, ?_⟩
            simp only [List.length_drop, List.length_cons]
            omega
        · simp only [h92, if_false] at h
          by_cases h3 : ((DecodeRuneInString (c :: t)).1 = RuneError ∧
              (DecodeRuneInString (c :: t)).2 = 1) ∨
              List.drop (DecodeRuneInString (c :: t)).2 (c :: t) = []
          · rw [if_pos h3] at h; cases h
          · rw [if_neg h3] at h
            simp only [Except.ok.injEq, Prod.mk.injEq] at h
            obtain ⟨_, hrest⟩ := h
            subst hrest
            push_neg at h3
            refine ⟨h3.2, ?_⟩
            have := decodeRune_width_pos c t
            simp only [List.length_drop, List.length_cons]
            omega

/-- The class loop stops within its step bound and shortens the chunk. -/
theorem matchClass_fuel :
    ∀ (fuel : Nat) (chunk : List Nat) (r : Nat) (m : Bool) (n : Nat), chunk.length < fuel →
      errOf (matchClass fuel chunk r m n) ≠ some .outOfFuel ∧
      ∀ m2 rest, matchClass fuel chunk r m n = .ok (m2, rest) → rest.length < chunk.length := by
  intro fuel
  induction fuel with
  | zero => intro chunk r m n h; omega
  | succ k ih =>
    intro chunk r m n hlen
    unfold matchClass
    by_cases hclose : chunk.head? = some 93 ∧ n > 0
    · simp only [hclose, and_self, if_true]
      refine ⟨by simp [errOf], ?_⟩
      intro m2 rest h
      simp only [Except.ok.injEq, Prod.mk.injEq] at h
      obtain ⟨_, hrest⟩ := h
      subst hrest
      cases chunk with
      | nil => simp at hclose
      | cons c t => simp
    · simp only [hclose, if_false]
      cases hlo : getEsc chunk with
      | error e =>
        refine ⟨?_, by intro m2 rest h; cases h⟩
        cases chunk with
        | nil => simp [getEsc] at hlo; subst hlo; simp [errOf]
        | cons c t =>
          simp only [getEsc] at hlo
          split_ifs at hlo <;> cases hlo <;> simp [errOf]
      | ok lo =>
        obtain ⟨lo, chunk1⟩ := lo
        obtain ⟨hne1, hlt1⟩ := getEsc_length chunk lo chunk1 hlo
        simp only
        by_cases hdash : chunk1.head? = some 45
        · simp only [hdash, if_true]
          cases hhi : getEsc chunk1.tail with
          | error e =>
            refine ⟨?_, by intro m2 rest h; cases h⟩
            cases hct : chunk1.tail with
            | nil => rw [hct] at hhi; simp [getEsc] at hhi; subst hhi; simp [errOf]
            | cons c t =>
              rw [hct] at hhi
              simp only [getEsc] at hhi
              split_ifs at hhi <;> cases hhi <;> simp [errOf]
          | ok hi =>
            obtain ⟨hi, chunk2⟩ := hi
            obtain ⟨_, hlt2⟩ := getEsc_length chunk1.tail hi chunk2 hhi
            have htl : chunk1.tail.length ≤ chunk1.length := by simp
            simp only
            obtain ⟨h1, h2⟩ := ih chunk2 r (m || (decide (lo ≤ r) && decide (r ≤ hi))) (n + 1)
              (by omega)
            refine ⟨h1, ?_⟩
            intro m2 rest h
            have := h2 m2 rest h
            omega
        · simp only [hdash, if_false]
          obtain ⟨h1, h2⟩ := ih chunk1 r (m || (decide (lo ≤ r) && decide (r ≤ lo))) (n + 1)
            (by omega)
          refine ⟨h1, ?_⟩
          intro m2 rest h
          have := h2 m2 rest h
          omega

/-- The loop of `matchChunk` stops within its step bound. -/
theorem matchChunkLoop_fuel :
    ∀ (fuel : Nat) (chunk s : List Nat) (f : Bool), chunk.length < fuel →
      errOf (matchChunkLoop fuel chunk s f) ≠ some .outOfFuel := by
  intro fuel
  induction fuel with
  | zero => intro chunk s f h; omega
  | succ k ih =>
    intro chunk s f hlen
    cases chunk with
    | nil =>
      simp only [matchChunkLoop]
      cases f <;> simp [errOf]
    | cons c chunk1 =>
      simp only [List.length_cons] at hlen
      simp only [matchChunkLoop]
      by_cases h91 : c = 91
      · simp only [h91, if_true]
        have hc2 : (if chunk1.head? = some 94 then chunk1.tail else chunk1).length ≤
            chunk1.length := by
          split_ifs <;> simp
        obtain ⟨h1, h2⟩ := matchClass_fuel
          ((if chunk1.head? = some 94 then chunk1.tail else chunk1).length + 1)
          (if chunk1.head? = some 94 then chunk1.tail else chunk1)
          (if (f || s.isEmpty) = true then (0, 0) else DecodeRuneInString s).1 false 0
          (Nat.lt_succ_self _)
        revert h1 h2
        generalize matchClass _ _ _ false 0 = A
        intro h1 h2
        cases A with
        | error e => simpa [errOf] using h1
        | ok a =>
          obtain ⟨ma, ca⟩ := a
          have := h2 ma ca rfl
          exact ih _ _ _ (by omega)
      · simp only [h91, if_false]
        by_cases h63 : c = 63
        · simp only [h63, if_true]
          split_ifs <;> exact ih _ _ _ (by omega)
        · simp only [h63, if_false]
          by_cases h92 : c = 92
          · simp only [h92, if_true]
            cases chunk1 with
            | nil => simp [errOf]
            | cons c1 chunk2 =>
              simp only [List.length_cons] at hlen
              simp only
              split_ifs <;> exact ih _ _ _ (by omega)
          · simp only [h92, if_false]
            split_ifs <;> exact ih _ _ _ (by omega)

theorem matchChunk_fuel (chunk s : List Nat) :
    errOf (matchChunk chunk s) ≠ some .outOfFuel :=
  matchChunkLoop_fuel _ chunk s false (Nat.lt_succ_self _)

theorem matchChunk_err_indep (chunk s s2 : List Nat) :
    errOf (matchChunk chunk s) = errOf (matchChunk chunk s2) :=
  (matchChunkLoop_err_indep _ chunk s false).trans
    (matchChunkLoop_err_indep _ chunk s2 false).symm

theorem scanChunkBody_cons (c : Nat) (p : List Nat) (inr : Bool)
    (h : ¬ (c = 92 ∧ p ≠ [])) :
    scanChunkBody (c :: p) inr =
      if c = 91 then (c :: (scanChunkBody p true).1, (scanChunkBody p true).2)
      else if c = 93 then (c :: (scanChunkBody p false).1, (scanChunkBody p false).2)
      else if c = 42 ∧ inr = false then ([], c :: p)
      else (c :: (scanChunkBody p inr).1, (scanChunkBody p inr).2) := by
  by_cases h92 : c = 92
  · subst h92
    cases p with
    | nil => simp [scanChunkBody]
    | cons d p => simp at h
  · rw [scanChunkBody]
    intro c2 p2 hc
    exact absurd hc h92

theorem scanChunkBody_rest_le (q : List Nat) (inr : Bool) :
    (scanChunkBody q inr).2.length ≤ q.length := by
  induction q, inr using scanChunkBody.induct with
  | case1 => simp [scanChunkBody]
  | case2 c p inrange ih =>
    simp only [scanChunkBody, List.length_cons]
    omega
  | case3 p inrange hne ih =>
    rw [scanChunkBody_cons _ _ _ (by simp)]
    simp only [if_true, List.length_cons]
    omega
  | case4 p inrange hne h1 ih =>
    rw [scanChunkBody_cons _ _ _ (by simp)]
    simp only [h1, if_false, if_true, List.length_cons]
    omega
  | case5 c p inrange hne h1 h2 h3 =>
    obtain ⟨hc, hi⟩ := h3
    subst hc
    subst hi
    rw [scanChunkBody_cons _ _ _ (by simp)]
    simp
  | case6 c p inrange hne h1 h2 h3 ih =>
    rw [scanChunkBody_cons _ _ _ (by rintro ⟨hc, hp⟩; obtain ⟨d, t, rfl⟩ := List.exists_cons_of_ne_nil hp; exact hne d t hc rfl)]
    simp only [h1, h2, h3, if_false, List.length_cons]
    omega

theorem scanChunkBody_rest_lt (q : List Nat) (inr : Bool) (hq : q ≠ [])
    (h : q.head? ≠ some 42 ∨ inr = true) : (scanChunkBody q inr).2.length < q.length := by
  cases q with
  | nil => exact absurd rfl hq
  | cons c p =>
    by_cases h92 : c = 92 ∧ p ≠ []
    · obtain ⟨hc, hp⟩ := h92
      obtain ⟨d, t, rfl⟩ := List.exists_cons_of_ne_nil hp
      subst hc
      have := scanChunkBody_rest_le t inr
      simp only [scanChunkBody, List.length_cons]
      omega
    · rw [scanChunkBody_cons _ _ _ h92]
      have h1 := scanChunkBody_rest_le p true
      have h2 := scanChunkBody_rest_le p false
      have h3 := scanChunkBody_rest_le p inr
      have hstar : ¬ (c = 42 ∧ inr = false) := by
        rintro ⟨hc, hi⟩
        rcases h with h | h
        · simp [hc] at h
        · rw [hi] at h; exact absurd h (by decide)
      split_ifs <;> simp only [List.length_cons] <;> omega

theorem scanChunkBody_chunk_nil (q : List Nat) (h : (scanChunkBody q false).1 = []) :
    q = [] ∨ q.head? = some 42 := by
  cases q with
  | nil => exact Or.inl rfl
  | cons c p =>
    right
    by_cases h92 : c = 92 ∧ p ≠ []
    · obtain ⟨hc, hp⟩ := h92
      obtain ⟨d, t, rfl⟩ := List.exists_cons_of_ne_nil hp
      subst hc
      simp [scanChunkBody] at h
    · rw [scanChunkBody_cons _ _ _ h92] at h
      by_cases h42 : c = 42
      · simp [h42]
      · split_ifs at h with a b d
        exact absurd d.1 h42

theorem dropStars_head (p : List Nat) : (dropStars p).head? ≠ some 42 := by
  induction p using dropStars.induct with
  | case1 p ih => simpa [dropStars] using ih
  | case2 p hne =>
    rw [dropStars]
    · cases p with
      | nil => simp
      | cons c t =>
        simp only [List.head?_cons, ne_eq, Option.some.injEq]
        intro hc
        exact hne t (by rw [hc])
    · exact hne

theorem dropStars_length (p : List Nat) :
    (dropStars p).length ≤ p.length ∧
      (p.head? = some 42 → (dropStars p).length < p.length) ∧
      (p.head? ≠ some 42 → dropStars p = p) := by
  induction p using dropStars.induct with
  | case1 p ih =>
    simp only [dropStars, List.length_cons, List.head?_cons]
    refine ⟨by omega, fun _ => by omega, fun h => absurd rfl h⟩
  | case2 p hne =>
    have : dropStars p = p := by
      rw [dropStars]
      exact hne
    rw [this]
    refine ⟨le_refl _, ?_, fun _ => rfl⟩
    intro h
    cases p with
    | nil => simp at h
    | cons c t =>
      simp only [List.head?_cons, Option.some.injEq] at h
      exact absurd (by rw [h]) (hne t)

/-- Each round of the `Pattern:` loop shortens the pattern. -/
theorem scanChunk_rest_lt (p : List Nat) (hp : p ≠ []) :
    (scanChunk p).2.2.length < p.length := by
  simp only [scanChunk]
  obtain ⟨h1, h2, h3⟩ := dropStars_length p
  by_cases hstar : p.head? = some 42
  · have := scanChunkBody_rest_le (dropStars p) false
    have := h2 hstar
    omega
  · rw [h3 hstar]
    exact scanChunkBody_rest_lt p false hp (Or.inl hstar)

theorem scanChunk_chunk_nil (p : List Nat) (h : (scanChunk p).2.1 = []) :
    (scanChunk p).2.2 = [] := by
  simp only [scanChunk] at h ⊢
  rcases scanChunkBody_chunk_nil _ h with hq | hq
  · rw [hq]; rfl
  · exact absurd hq (dropStars_head p)

theorem starLoop_no_err (chunk : List Nat) (lastChunk : Bool)
    (h : errOf (matchChunk chunk []) = none) :
    ∀ name, errOf (starLoop chunk lastChunk name) = none := by
  intro name
  induction name with
  | nil => rfl
  | cons c name1 ih =>
    simp only [starLoop]
    by_cases hc : c = Separator
    · simp [hc, errOf]
    · simp only [hc, if_false]
      have hn := (matchChunk_err_indep chunk name1 []).trans h
      revert hn
      generalize matchChunk chunk name1 = A
      intro hn
      cases A with
      | error e => simp [errOf] at hn
      | ok a =>
        cases a with
        | none => exact ih
        | some t =>
          simp only
          split_ifs
          · exact ih
          · rfl

/-- The `Pattern:` loop stops within its step bound. -/
theorem matchLoop_fuel :
    ∀ (fuel : Nat) (p name : List Nat), p.length < fuel →
      errOf (matchLoop fuel p name) ≠ some .outOfFuel := by
  intro fuel
  induction fuel with
  | zero => intro p name h; omega
  | succ k ih =>
    intro p name hlen
    simp only [matchLoop]
    by_cases hp : p = []
    · simp [hp, errOf]
    · simp only [hp, if_false]
      have hrest := scanChunk_rest_lt p hp
      have hk : (scanChunk p).2.2.length < k := by omega
      by_cases hstar : (scanChunk p).1 = true ∧ (scanChunk p).2.1 = []
      · simp [hstar, errOf]
      · simp only [hstar, if_false]
        have hind := matchChunk_err_indep (scanChunk p).2.1 name []
        have hfuel := matchChunk_fuel (scanChunk p).2.1 name
        revert hind hfuel
        generalize matchChunk (scanChunk p).2.1 name = A
        intro hind hfuel
        cases A with
        | error e => simpa [errOf] using hfuel
        | ok first =>
          simp only
          have hstarLoop : ∀ last nm, errOf (starLoop (scanChunk p).2.1 last nm) = none :=
            fun last nm => starLoop_no_err _ last (by rw [← hind]; rfl) nm
          split
          · exact ih _ _ hk
          · split
            · rename_i e he
              have := hstarLoop (scanChunk p).2.2.isEmpty name
              split_ifs at he with hs
              · rw [he] at this; simp [errOf] at this
            · exact ih _ _ hk
            · simp [errOf]

/-- A pattern all of whose chunks parse never makes `Match` return an
error. -/
theorem matchLoop_parses_ok :
    ∀ (fuel : Nat) (p name : List Nat), p.length < fuel → patternParses fuel p = true →
      errOf (matchLoop fuel p name) = none := by
  intro fuel
  induction fuel with
  | zero => intro p name h; omega
  | succ k ih =>
    intro p name hlen hparse
    simp only [matchLoop]
    by_cases hp : p = []
    · simp [hp, errOf]
    · simp only [hp, if_false]
      have hrest := scanChunk_rest_lt p hp
      have hk : (scanChunk p).2.2.length < k := by omega
      simp only [patternParses, hp, if_false] at hparse
      by_cases hstar : (scanChunk p).1 = true ∧ (scanChunk p).2.1 = []
      · simp [hstar, errOf]
      · simp only [hstar, if_false]
        have hind := matchChunk_err_indep (scanChunk p).2.1 name []
        revert hind hparse
        generalize matchChunk (scanChunk p).2.1 name = A
        generalize hB : matchChunk (scanChunk p).2.1 [] = B
        intro hparse hind
        cases B with
        | error e2 => simp at hparse
        | ok b =>
          simp only at hparse
          cases A with
          | error e => simp [errOf] at hind
          | ok first =>
            simp only
            have hstarLoop : ∀ last nm, errOf (starLoop (scanChunk p).2.1 last nm) = none :=
              fun last nm => starLoop_no_err _ last (by rw [hB]; rfl) nm
            split
            · exact ih _ _ hk hparse
            · split
              · rename_i e he
                have := hstarLoop (scanChunk p).2.2.isEmpty name
                split_ifs at he with hs
                · rw [he] at this; simp [errOf] at this
              · exact ih _ _ hk hparse
              · rfl

/-- A pattern that matches some name has only chunks that parse. -/
theorem matchLoop_true_parses :
    ∀ (fuel : Nat) (p name : List Nat), p.length < fuel → matchLoop fuel p name = .ok true →
      patternParses fuel p = true := by
  intro fuel
  induction fuel with
  | zero => intro p name h; omega
  | succ k ih =>
    intro p name hlen hmatch
    simp only [matchLoop] at hmatch
    simp only [patternParses]
    by_cases hp : p = []
    · simp [hp]
    · simp only [hp, if_false] at hmatch ⊢
      have hrest := scanChunk_rest_lt p hp
      have hk : (scanChunk p).2.2.length < k := by omega
      by_cases hstar : (scanChunk p).1 = true ∧ (scanChunk p).2.1 = []
      · have hnil := scanChunk_chunk_nil p hstar.2
        rw [hnil] at hk ⊢
        rw [hstar.2]
        cases k with
        | zero => simp at hk
        | succ j => simp [matchChunk, matchChunkLoop, patternParses]
      · simp only [hstar, if_false] at hmatch
        have hind := matchChunk_err_indep (scanChunk p).2.1 name []
        revert hind hmatch
        generalize matchChunk (scanChunk p).2.1 name = A
        generalize matchChunk (scanChunk p).2.1 [] = B
        intro hmatch hind
        cases A with
        | error e => simp at hmatch
        | ok first =>
          cases B with
          | error e2 => simp [errOf] at hind
          | ok b =>
            simp only at hmatch ⊢
            split at hmatch
            · exact ih _ _ hk hmatch
            · split at hmatch
              · simp at hmatch
              · exact ih _ _ hk hmatch
              · simp at hmatch

/-- The step bounds of the model of `Match` are never reached: the only error
`Match` returns is `ErrBadPattern`. -/
theorem Match_error_bad (p name : List Nat) (e : PatternError)
    (h : Match p name = .error e) : e = .ErrBadPattern := by
  have h1 := matchLoop_fuel (p.length + 1) p name (Nat.lt_succ_self _)
  rw [show matchLoop (p.length + 1) p name = Match p name from rfl, h] at h1
  cases e with
  | ErrBadPattern => rfl
  | outOfFuel => simp [errOf] at h1

theorem malformed_of_error (pattern : String) (name : List Nat) (e : PatternError)
    (h : Match (goBytes pattern) name = .error e) : Malformed pattern :=
  ⟨name, by rw [h, Match_error_bad _ _ e h]⟩

/-- For a pattern that is not malformed `Match` returns a result on every
name. -/
theorem Match_ok_of_not_malformed (pattern : String) (name : List Nat)
    (h : ¬ Malformed pattern) : ∃ b, Match (goBytes pattern) name = .ok b := by
  cases hm : Match (goBytes pattern) name with
  | error e => exact absurd (malformed_of_error pattern name e hm) h
  | ok b => exact ⟨b, rfl⟩

/-- A pattern all of whose chunks parse is not malformed. -/
theorem not_malformed_of_parses (pattern : String)
    (h : patternParses ((goBytes pattern).length + 1) (goBytes pattern) = true) :
    ¬ Malformed pattern := by
  rintro ⟨name, hname⟩
  have := matchLoop_parses_ok _ (goBytes pattern) name (Nat.lt_succ_self _) h
  rw [show matchLoop ((goBytes pattern).length + 1) (goBytes pattern) name =
    Match (goBytes pattern) name from rfl, hname] at this
  simp [errOf] at this

/-- A malformed pattern matches no name. -/
theorem Match_ne_true_of_malformed (pattern : String) (name : List Nat)
    (h : Malformed pattern) : Match (goBytes pattern) name ≠ .ok true := by
  intro hm
  exact not_malformed_of_parses pattern
    (matchLoop_true_parses _ (goBytes pattern) name (Nat.lt_succ_self _) hm) h

/-- One round of the loop of `shouldExcludeFile`. -/
theorem shouldExcludeFile_cons (filename pattern : String) (patterns : List String) :
    shouldExcludeFile filename (pattern :: patterns) = true ↔
      ExcludedBy filename pattern ∨ shouldExcludeFile filename patterns = true := by
  rw [shouldExcludeFile]
  unfold ExcludedBy
  cases h1 : Match (goBytes pattern) (goBytes filename) with
  | error e => simp
  | ok b1 =>
    cases b1 with
    | true => simp
    | false =>
      simp only
      cases h2 : Match (goBytes pattern) (Base (goBytes filename)) with
      | error e => simp
      | ok b2 =>
        cases b2 with
        | true => simp
        | false =>
          simp only
          by_cases hs : HasSuffix (goBytes pattern) (goBytes "/*") = true
          · by_cases hp : HasPrefix (goBytes filename) (Dir (goBytes pattern)) = true
            · simp [hs, hp]
            · simp [hs, hp]
          · simp [hs]

theorem shouldExcludeFile_iff_exists (filename : String) (patterns : List String) :
    shouldExcludeFile filename patterns = true ↔ ∃ p ∈ patterns, ExcludedBy filename p := by
  induction patterns with
  | nil => simp [shouldExcludeFile]
  | cons p rest ih =>
    rw [shouldExcludeFile_cons, ih]
    simp only [List.mem_cons, exists_eq_or_imp]

/-- For a pattern that is not malformed, the three ways of excluding a file
are a match on the full path, a match on the base name, and the directory
test. -/
theorem excludedBy_iff_of_not_malformed (filename pattern : String) (h : ¬ Malformed pattern) :
    ExcludedBy filename pattern ↔
      (Match (goBytes pattern) (goBytes filename) = .ok true ∨
       Match (goBytes pattern) (Base (goBytes filename)) = .ok true ∨
       (HasSuffix (goBytes pattern) (goBytes "/*") = true ∧
         HasPrefix (goBytes filename) (Dir (goBytes pattern)) = true)) := by
  obtain ⟨b1, h1⟩ := Match_ok_of_not_malformed pattern (goBytes filename) h
  obtain ⟨b2, h2⟩ := Match_ok_of_not_malformed pattern (Base (goBytes filename)) h
  unfold ExcludedBy
  rw [h1, h2]
  cases b1 <;> cases b2 <;> simp

/-- C9, as the code behaves: `shouldExcludeFile` returns true if and only if
some pattern of the list excludes the path in one of three ways:
`filepath.Match` reports a match on the full path; or it reports neither a
match nor an error on the full path and a match on the base name; or it
reports neither a match nor an error on both, the pattern ends in "/*" and
the path starts with `filepath.Dir` of the pattern as a string. A pattern is
skipped only when `filepath.Match` reports `ErrBadPattern` on a name it is
tried on. When some pattern that is not malformed satisfies one of the three
conditions of the claim the result is true, and when no pattern of the list is
malformed the result is true exactly in that case. The result is false for
the empty pattern list. -/
theorem shouldExcludeFile_iff (filename : String) (patterns : List String) :
    (shouldExcludeFile filename patterns = true ↔
      ∃ p ∈ patterns,
        Match (goBytes p) (goBytes filename) = .ok true ∨
        (Match (goBytes p) (goBytes filename) = .ok false ∧
          Match (goBytes p) (Base (goBytes filename)) = .ok true) ∨
        (Match (goBytes p) (goBytes filename) = .ok false ∧
          Match (goBytes p) (Base (goBytes filename)) = .ok false ∧
          HasSuffix (goBytes p) (goBytes "/*") = true ∧
          HasPrefix (goBytes filename) (Dir (goBytes p)) = true)) ∧
    ((∃ p ∈ patterns, ¬ Malformed p ∧
        (Match (goBytes p) (goBytes filename) = .ok true ∨
         Match (goBytes p) (Base (goBytes filename)) = .ok true ∨
         (HasSuffix (goBytes p) (goBytes "/*") = true ∧
           HasPrefix (goBytes filename) (Dir (goBytes p)) = true))) →
      shouldExcludeFile filename patterns = true) ∧
    ((∀ p ∈ patterns, ¬ Malformed p) →
      (shouldExcludeFile filename patterns = true ↔
        ∃ p ∈ patterns, ¬ Malformed p ∧
          (Match (goBytes p) (goBytes filename) = .ok true ∨
           Match (goBytes p) (Base (goBytes filename)) = .ok true ∨
           (HasSuffix (goBytes p) (goBytes "/*") = true ∧
             HasPrefix (goBytes filename) (Dir (goBytes p)) = true)))) ∧
    shouldExcludeFile filename [] = false := by
  have hif : (∃ p ∈ patterns, ¬ Malformed p ∧
        (Match (goBytes p) (goBytes filename) = .ok true ∨
         Match (goBytes p) (Base (goBytes filename)) = .ok true ∨
         (HasSuffix (goBytes p) (goBytes "/*") = true ∧
           HasPrefix (goBytes filename) (Dir (goBytes p)) = true))) →
      shouldExcludeFile filename patterns = true := by
    rintro ⟨p, hp, hwf, h⟩
    exact (shouldExcludeFile_iff_exists filename patterns).mpr
      ⟨p, hp, (excludedBy_iff_of_not_malformed filename p hwf).mpr h⟩
  refine ⟨shouldExcludeFile_iff_exists filename patterns, hif, ?_, rfl⟩
  intro hall
  constructor
  · intro h
    obtain ⟨p, hp, hex⟩ := (shouldExcludeFile_iff_exists filename patterns).mp h
    exact ⟨p, hp, hall p hp, (excludedBy_iff_of_not_malformed filename p (hall p hp)).mp hex⟩
  · exact hif

/-- C9, counterexample: the only pattern of the list is malformed, as
`filepath.Match` reports `ErrBadPattern` for it on the name "b"; on the path
"[b]*[]/x" and on its base name "x" the match fails before the malformed part
is read, and the directory test makes `shouldExcludeFile` return true. -/
theorem shouldExcludeFile_counterexample :
    shouldExcludeFile "[b]*[]/x" [badDirPattern] = true ∧
    Match (goBytes badDirPattern) (goBytes "b") = .error .ErrBadPattern ∧
    Match (goBytes badDirPattern) (goBytes "[b]*[]/x") = .ok false ∧
    Match (goBytes badDirPattern) (Base (goBytes "[b]*[]/x")) = .ok false ∧
    ¬ ∃ p ∈ [badDirPattern], ¬ Malformed p ∧
      (Match (goBytes p) (goBytes "[b]*[]/x") = .ok true ∨
       Match (goBytes p) (Base (goBytes "[b]*[]/x")) = .ok true ∨
       (HasSuffix (goBytes p) (goBytes "/*") = true ∧
         HasPrefix (goBytes "[b]*[]/x") (Dir (goBytes p)) = true)) := by
  refine ⟨by decide, by decide, by decide, by decide, ?_⟩
  rintro ⟨p, hp, hwf, _⟩
  rw [List.mem_singleton] at hp
  subst hp
  exact hwf ⟨goBytes "b", by decide⟩

/-! ## Lookup by name: `findConfigEntryIndex` -/

theorem findConfigEntryIndexFrom_absent (name : String) :
    ∀ (tiers : List ConfigEntry) (k : Int), (∀ e ∈ tiers, e.Size ≠ name) →
      findConfigEntryIndexFrom tiers name k = -1 := by
  intro tiers
  induction tiers with
  | nil => intro k _; rfl
  | cons a rest ih =>
    intro k h
    have ha : a.Size ≠ name := h a (by simp)
    simp only [findConfigEntryIndexFrom, ha, if_false]
    exact ih (k + 1) (fun e he => h e (by simp [he]))

theorem firstAt_exists (name : String) :
    ∀ tiers : List ConfigEntry, (∃ e ∈ tiers, e.Size = name) → ∃ p, FirstAt tiers name p := by
  intro tiers
  induction tiers with
  | nil => rintro ⟨e, he, _⟩; simp at he
  | cons a rest ih =>
    rintro ⟨e, he, hname⟩
    by_cases ha : a.Size = name
    · exact ⟨0, ⟨a, by simp, ha⟩, by intro j t hj; omega⟩
    · have hrest : ∃ e ∈ rest, e.Size = name := by
        rcases List.mem_cons.mp he with h | h
        · exact absurd (h ▸ hname) ha
        · exact ⟨e, h, hname⟩
      obtain ⟨q, ⟨t, ht, htn⟩, hbefore⟩ := ih hrest
      refine ⟨q + 1, ⟨t, by simpa using ht, htn⟩, ?_⟩
      intro j t' hj hjt
      cases j with
      | zero =>
        simp at hjt
        subst hjt
        exact ha
      | succ i => exact hbefore i t' (by omega) (by simpa using hjt)

theorem firstAt_lt_length (tiers : List ConfigEntry) (name : String) (p : Nat)
    (h : FirstAt tiers name p) : p < tiers.length := by
  obtain ⟨⟨t, ht, _⟩, _⟩ := h
  exact (List.getElem?_eq_some.mp ht).1

theorem findConfigEntryIndex_absent_iff (tiers : List ConfigEntry) (name : String) :
    findConfigEntryIndex tiers name = -1 ↔ ∀ e ∈ tiers, e.Size ≠ name := by
  constructor
  · intro h e he hname
    obtain ⟨p, hp⟩ := firstAt_exists name tiers ⟨e, he, hname⟩
    rw [findConfigEntryIndex_firstAt tiers name p hp] at h
    omega
  · intro h
    exact findConfigEntryIndexFrom_absent name tiers 0 h

theorem findConfigEntryIndex_found (tiers : List ConfigEntry) (name : String)
    (h : ∃ e ∈ tiers, e.Size = name) :
    ∃ p : Nat, findConfigEntryIndex tiers name = p ∧ FirstAt tiers name p := by
  obtain ⟨p, hp⟩ := firstAt_exists name tiers h
  exact ⟨p, findConfigEntryIndex_firstAt tiers name p hp, hp⟩

/-- C20: `findConfigEntryIndex` returns -1 if and only if no entry of the list
has the name (so also for the empty list); otherwise it returns the smallest
index `i` at which the entry has the name, and `0 <= i < len(entries)`. -/
theorem findConfigEntryIndex_first_match (entries : List ConfigEntry) (size : String) :
    (findConfigEntryIndex entries size = -1 ↔ ∀ e ∈ entries, e.Size ≠ size) ∧
    findConfigEntryIndex [] size = -1 ∧
    ((∃ e ∈ entries, e.Size = size) →
      ∃ i : Nat, findConfigEntryIndex entries size = (i : Int) ∧
        0 ≤ findConfigEntryIndex entries size ∧
        findConfigEntryIndex entries size < (entries.length : Int) ∧
        (∃ t, entries[i]? = some t ∧ t.Size = size) ∧
        ∀ j t, j < i → entries[j]? = some t → t.Size ≠ size) := by
  refine ⟨findConfigEntryIndex_absent_iff entries size, rfl, ?_⟩
  intro h
  obtain ⟨p, hp, hfirst⟩ := findConfigEntryIndex_found entries size h
  have hlt := firstAt_lt_length entries size p hfirst
  refine ⟨p, hp, ?_, ?_, hfirst.1, hfirst.2⟩
  · rw [hp]; exact Int.natCast_nonneg p
  · rw [hp]; exact_mod_cast hlt

/-- C12: when the name of `byFiles` is not found in the list and the name of
`byLines` is found, `getBiggestEntry` returns `byLines`; when the name of
`byLines` is not found it returns `byFiles`, whether or not the name of
`byFiles` is found. -/
theorem getBiggestEntry_not_found (tiers : List ConfigEntry) (byFiles byLines : ConfigEntry) :
    ((∀ t ∈ tiers, t.Size ≠ byFiles.Size) → (∃ t ∈ tiers, t.Size = byLines.Size) →
      getBiggestEntry tiers byFiles byLines = byLines) ∧
    ((∀ t ∈ tiers, t.Size ≠ byLines.Size) →
      getBiggestEntry tiers byFiles byLines = byFiles) := by
  constructor
  · intro hF hL
    obtain ⟨p, hp, _⟩ := findConfigEntryIndex_found tiers byLines.Size hL
    have hf := (findConfigEntryIndex_absent_iff tiers byFiles.Size).mpr hF
    have hlt : ¬ ((-1 : Int) ≥ (p : Int)) := by omega
    simp only [getBiggestEntry, hf, hp, hlt, if_false]
  · intro hL
    have hl := (findConfigEntryIndex_absent_iff tiers byLines.Size).mpr hL
    by_cases hF : ∃ t ∈ tiers, t.Size = byFiles.Size
    · obtain ⟨p, hp, _⟩ := findConfigEntryIndex_found tiers byFiles.Size hF
      have hge : (p : Int) ≥ -1 := by omega
      simp only [getBiggestEntry, hl, hp, hge, if_true]
    · have hf := (findConfigEntryIndex_absent_iff tiers byFiles.Size).mpr
        (fun t ht hname => hF ⟨t, ht, hname⟩)
      simp [getBiggestEntry, hl, hf]

/-- C19: on a non-empty tier list `getSize` returns an element of the list,
for every count and dimension, so `findConfigEntryIndex` of the name of a
resolved tier is never -1; in `ProcessPullRequest` both tiers handed to
`getBiggestEntry` are found in the list. -/
theorem getSize_result_in_list (config : Config) (numberOfFiles numberOfLines : Int)
    (hne : config.LabelConfigs ≠ []) :
    (∀ (currentCount : Int) (paramName : String),
      ∃ e, getSize config.LabelConfigs currentCount paramName = .ok e ∧
        e ∈ config.LabelConfigs ∧ findConfigEntryIndex config.LabelConfigs e.Size ≠ -1) ∧
    (∃ size diff, mapNumberOfChangesToSize numberOfFiles numberOfLines config = .ok (size, diff) ∧
      size ∈ config.LabelConfigs ∧ diff ∈ config.LabelConfigs ∧
      0 ≤ findConfigEntryIndex config.LabelConfigs size.Size ∧
      0 ≤ findConfigEntryIndex config.LabelConfigs diff.Size) := by
  have hidx : ∀ e ∈ config.LabelConfigs,
      0 ≤ findConfigEntryIndex config.LabelConfigs e.Size := by
    intro e he
    obtain ⟨p, hp, _⟩ := findConfigEntryIndex_found config.LabelConfigs e.Size ⟨e, he, rfl⟩
    rw [hp]; exact Int.natCast_nonneg p
  constructor
  · intro currentCount paramName
    obtain ⟨e, he, hmem⟩ := getSize_mem config.LabelConfigs currentCount paramName hne
    have := hidx e hmem
    exact ⟨e, he, hmem, by omega⟩
  · obtain ⟨size, hs, hsm⟩ := getSize_mem config.LabelConfigs numberOfFiles ParamNameFiles hne
    obtain ⟨diff, hd, hdm⟩ := getSize_mem config.LabelConfigs numberOfLines ParamNameDiff hne
    exact ⟨size, diff, by simp [mapNumberOfChangesToSize, hs, hd], hsm, hdm,
      hidx size hsm, hidx diff hdm⟩

theorem getSize_result_in_list_witness :
    ∃ size diff, mapNumberOfChangesToSize 15 35 testConfig = .ok (size, diff) ∧
      size ∈ testConfig.LabelConfigs ∧ diff ∈ testConfig.LabelConfigs ∧
      0 ≤ findConfigEntryIndex testConfig.LabelConfigs size.Size ∧
      0 ≤ findConfigEntryIndex testConfig.LabelConfigs diff.Size :=
  (getSize_result_in_list testConfig 15 35 (by decide)).2

/-! ## Aggregation: order and skipped records -/

/-- C13: `calculateSizeAndDiff` returns the same pair of counts on two lists
of change records that are permutations of each other. -/
theorem calculateSizeAndDiff_perm (files1 files2 : List CommitFile) (config : Config)
    (h : files1.Perm files2) :
    calculateSizeAndDiff files1 config = calculateSizeAndDiff files2 config := by
  simp only [calculateSizeAndDiff_eq]
  have hf := h.filter (keptRecord config)
  rw [hf.length_eq, (hf.map (countedLines config)).sum_eq]

theorem calculateSizeAndDiff_perm_witness :
    calculateSizeAndDiff [mockCommitFile "exclude.txt" 100, mockCommitFile "file2.go" 20,
        mockCommitFile "file1.go" 5] testConfig =
      calculateSizeAndDiff [mockCommitFile "file1.go" 5, mockCommitFile "file2.go" 20,
        mockCommitFile "exclude.txt" 100] testConfig ∧
    calculateSizeAndDiff [mockCommitFile "file1.go" 5, mockCommitFile "file2.go" 20,
        mockCommitFile "exclude.txt" 100] testConfig = (2, 25) :=
  ⟨calculateSizeAndDiff_perm _ _ testConfig (by decide), by decide⟩

/-- C16: when `AddedLinesOnly` is true, a change record with status "removed"
is skipped entirely: inserting it anywhere into the list of change records,
whatever its filename, additions and changes, leaves both results of
`calculateSizeAndDiff` unchanged. -/
theorem calculateSizeAndDiff_removed_skipped (config : Config)
    (hadd : config.AddedLinesOnly = true) (before after : List CommitFile) (r : CommitFile)
    (hr : r.GetStatus = "removed") :
    calculateSizeAndDiff (before ++ r :: after) config =
      calculateSizeAndDiff (before ++ after) config := by
  have hk : keptRecord config r = false := by simp [keptRecord, hadd, hr]
  simp only [calculateSizeAndDiff_eq, List.filter_append, List.filter_cons, hk]
  simp

theorem calculateSizeAndDiff_removed_skipped_witness :
    calculateSizeAndDiff ([⟨some "a.go", some "added", some 3, some 4⟩] ++
        ⟨some "gone.go", some "removed", some 7, some 90⟩ ::
          [⟨some "b.go", some "modified", some 1, some 2⟩]) ⟨[], testTiers, true⟩ =
      calculateSizeAndDiff ([⟨some "a.go", some "added", some 3, some 4⟩] ++
        [⟨some "b.go", some "modified", some 1, some 2⟩]) ⟨[], testTiers, true⟩ ∧
    calculateSizeAndDiff ([⟨some "a.go", some "added", some 3, some 4⟩] ++
        [⟨some "b.go", some "modified", some 1, some 2⟩]) ⟨[], testTiers, true⟩ = (2, 4) :=
  ⟨calculateSizeAndDiff_removed_skipped ⟨[], testTiers, true⟩ rfl _ _
      ⟨some "gone.go", some "removed", some 7, some 90⟩ rfl, by decide⟩

theorem getSize_head (first : ConfigEntry) (rest : List ConfigEntry) (n : Int) (p : String)
    (h : n ≤ entryValue first p) : getSize (first :: rest) n p = .ok first := by
  simp [getSize, getSizeLoop, h]

/-- C18: no files results in the smallest size and diff. For a configuration
whose tier list is not empty and whose first tier has non-negative file and
line thresholds, `calculateSizeAndDiff` on the empty change list returns
`(0, 0)` and `mapNumberOfChangesToSize` on these counts returns the first
configured tier for the file count and for the line count. -/
theorem no_files_smallest_size (config : Config) (first : ConfigEntry)
    (rest : List ConfigEntry) (hcfg : config.LabelConfigs = first :: rest)
    (hfiles : 0 ≤ first.Files) (hdiff : 0 ≤ first.Diff) :
    calculateSizeAndDiff [] config = (0, 0) ∧
    mapNumberOfChangesToSize (calculateSizeAndDiff [] config).1
      (calculateSizeAndDiff [] config).2 config = .ok (first, first) := by
  have h0 : calculateSizeAndDiff [] config = (0, 0) := rfl
  refine ⟨h0, ?_⟩
  have hF : getSize (first :: rest) 0 ParamNameFiles = .ok first :=
    getSize_head first rest 0 _ (by rw [show ParamNameFiles = "files" from rfl, entryValue_files]; exact hfiles)
  have hD : getSize (first :: rest) 0 ParamNameDiff = .ok first :=
    getSize_head first rest 0 _ (by rw [show ParamNameDiff = "diff" from rfl, entryValue_diff]; exact hdiff)
  simp only [h0, mapNumberOfChangesToSize, hcfg, hF, hD]

theorem no_files_smallest_size_witness :
    calculateSizeAndDiff [] testConfig = (0, 0) ∧
    mapNumberOfChangesToSize (calculateSizeAndDiff [] testConfig).1
      (calculateSizeAndDiff [] testConfig).2 testConfig =
        .ok (⟨"xs", 10, 1, ["size/xs"]⟩, ⟨"xs", 10, 1, ["size/xs"]⟩) :=
  no_files_smallest_size testConfig ⟨"xs", 10, 1, ["size/xs"]⟩ _ rfl (by decide) (by decide)

/-! ## Path matcher: malformed patterns and directory patterns -/

theorem shouldExcludeFile_append (filename : String) (ps qs : List String) :
    shouldExcludeFile filename (ps ++ qs) = true ↔
      shouldExcludeFile filename ps = true ∨ shouldExcludeFile filename qs = true := by
  induction ps with
  | nil => simp [shouldExcludeFile]
  | cons p rest ih =>
    rw [List.cons_append, shouldExcludeFile_cons, shouldExcludeFile_cons, ih, or_assoc]

/-- C14, as the code behaves: a pattern on which `filepath.Match` reports
`ErrBadPattern` is skipped without aborting. For a malformed pattern `p`
anywhere in the pattern list, `shouldExcludeFile` returns what it returns on
the list without `p` whenever the error is reported on the path (or on its
base name after no match on the path), and whenever `p` does not end in "/*",
so the patterns after `p` are still evaluated. In general the result with `p`
is true exactly when the result without `p` is true or `p`, with no error
reported on the path and on its base name, ends in "/*" and the path starts
with `filepath.Dir` of `p`. -/
theorem shouldExcludeFile_skips_malformed (f p : String) (ps qs : List String)
    (hp : Malformed p) :
    (shouldExcludeFile f (ps ++ [p] ++ qs) = true ↔
      shouldExcludeFile f (ps ++ qs) = true ∨
      (Match (goBytes p) (goBytes f) = .ok false ∧
        Match (goBytes p) (Base (goBytes f)) = .ok false ∧
        HasSuffix (goBytes p) (goBytes "/*") = true ∧
        HasPrefix (goBytes f) (Dir (goBytes p)) = true)) ∧
    ((Match (goBytes p) (goBytes f) = .error .ErrBadPattern ∨
        (Match (goBytes p) (goBytes f) = .ok false ∧
          Match (goBytes p) (Base (goBytes f)) = .error .ErrBadPattern)) →
      shouldExcludeFile f (ps ++ [p] ++ qs) = shouldExcludeFile f (ps ++ qs)) ∧
    (HasSuffix (goBytes p) (goBytes "/*") = false →
      shouldExcludeFile f (ps ++ [p] ++ qs) = shouldExcludeFile f (ps ++ qs)) := by
  have hex : ExcludedBy f p ↔
      (Match (goBytes p) (goBytes f) = .ok false ∧
        Match (goBytes p) (Base (goBytes f)) = .ok false ∧
        HasSuffix (goBytes p) (goBytes "/*") = true ∧
        HasPrefix (goBytes f) (Dir (goBytes p)) = true) := by
    have h1 := Match_ne_true_of_malformed p (goBytes f) hp
    have h2 := Match_ne_true_of_malformed p (Base (goBytes f)) hp
    unfold ExcludedBy
    constructor
    · rintro (h | ⟨_, h⟩ | h)
      · exact absurd h h1
      · exact absurd h h2
      · exact h
    · exact fun h => Or.inr (Or.inr h)
  have hgen : shouldExcludeFile f (ps ++ [p] ++ qs) = true ↔
      shouldExcludeFile f (ps ++ qs) = true ∨ ExcludedBy f p := by
    rw [List.append_assoc, List.singleton_append, shouldExcludeFile_append,
      shouldExcludeFile_cons, shouldExcludeFile_append]
    tauto
  have hskip : ¬ ExcludedBy f p →
      shouldExcludeFile f (ps ++ [p] ++ qs) = shouldExcludeFile f (ps ++ qs) := by
    intro hno
    rw [Bool.eq_iff_iff, hgen]
    tauto
  refine ⟨by rw [hgen, hex], ?_, ?_⟩
  · intro herr
    apply hskip
    rw [hex]
    rintro ⟨h1, h2, _⟩
    rcases herr with h | ⟨_, h⟩
    · rw [h] at h1; cases h1
    · rw [h] at h2; cases h2
  · intro hsuf
    apply hskip
    rw [hex]
    rintro ⟨_, _, h3, _⟩
    rw [hsuf] at h3
    cases h3

theorem shouldExcludeFile_skips_malformed_witness :
    Malformed "[" ∧
    shouldExcludeFile "a.go" ([] ++ ["["] ++ ["*.go"]) = shouldExcludeFile "a.go" ([] ++ ["*.go"]) ∧
    shouldExcludeFile "a.go" ["[", "*.go"] = true :=
  ⟨⟨[], by decide⟩,
    (shouldExcludeFile_skips_malformed "a.go" "[" [] ["*.go"] ⟨[], by decide⟩).2.1
      (Or.inl (by decide)),
    by decide⟩

/-- C14, counterexample: the pattern "[b]*[]/*" is malformed, as
`filepath.Match` reports `ErrBadPattern` for it on the name "b", yet with it
as the only pattern the path "[b]*[]/x" is excluded, and without it the path
is not excluded. -/
theorem malformed_dir_pattern_counterexample :
    Match (goBytes badDirPattern) (goBytes "b") = .error .ErrBadPattern ∧
    shouldExcludeFile "[b]*[]/x" ([] ++ [badDirPattern] ++ []) = true ∧
    shouldExcludeFile "[b]*[]/x" ([] ++ []) = false := by
  refine ⟨by decide, by decide, by decide⟩

/-- C15: for a well-formed pattern that ends in "/*" and a path that has the
directory portion `filepath.Dir` of the pattern as a raw string prefix,
`shouldExcludeFile` with that pattern is true; the prefix need not end at a
path-segment boundary and the path may be nested deeper than one level. -/
theorem shouldExcludeFile_dir_prefix (path p : String) (hwf : ¬ Malformed p)
    (hsuf : HasSuffix (goBytes p) (goBytes "/*") = true)
    (hpre : HasPrefix (goBytes path) (Dir (goBytes p)) = true) :
    shouldExcludeFile path [p] = true := by
  rw [shouldExcludeFile_cons, excludedBy_iff_of_not_malformed path p hwf]
  exact Or.inl (Or.inr (Or.inr ⟨hsuf, hpre⟩))

theorem shouldExcludeFile_dir_prefix_witness :
    (Dir (goBytes "/foo/*") = goBytes "/foo" ∧ shouldExcludeFile "/foobar/x" ["/foo/*"] = true) ∧
    shouldExcludeFile "/nested/directory/structure/file.txt" ["/nested/directory/*"] = true :=
  ⟨⟨by decide, shouldExcludeFile_dir_prefix "/foobar/x" "/foo/*"
      (not_malformed_of_parses "/foo/*" (by decide)) (by decide) (by decide)⟩,
    shouldExcludeFile_dir_prefix "/nested/directory/structure/file.txt" "/nested/directory/*"
      (not_malformed_of_parses "/nested/directory/*" (by decide)) (by decide) (by decide)⟩

/-! ## Label reconciliation: empty label list, change of tier -/

theorem addedLabels_update (api : ApiErrors) (hapi : ∀ log c, api log c = false)
    (pr : PullRequest) (config : Config) (entry : ConfigEntry) :
    addedLabels (updatePullRequestLabel api (some pr) config entry).1 =
      entry.Labels.filter (fun l => !labelExists pr l) := by
  rw [updatePullRequestLabel_ok api hapi]
  simp only [addedLabels_append, addedLabels_map_remove, addedLabels_map_add, List.nil_append]

/-- C11, as the code behaves: a winning tier with an empty label list does not
make the reconciliation fail. With the API answering every call,
`updatePullRequestLabel` returns no error, issues no addition and removes
every current label that belongs to a configured tier, and a run of
`ProcessPullRequest` that resolves to such a tier returns normally after these
removals. -/
theorem updatePullRequestLabel_empty_labels (api : ApiErrors)
    (hapi : ∀ log c, api log c = false) (pr : PullRequest) (config : Config)
    (entry : ConfigEntry) (hempty : entry.Labels = []) :
    updatePullRequestLabel api (some pr) config entry =
      (((labelNames pr).filter (fun l =>
          decide (∃ t ∈ config.LabelConfigs, l ∈ t.Labels))).map
        ApiCall.RemoveLabelForIssue, false) ∧
    (∀ (files : List CommitFile) (size diff : ConfigEntry),
      mapNumberOfChangesToSize (calculateSizeAndDiff files config).1
        (calculateSizeAndDiff files config).2 config = .ok (size, diff) →
      getBiggestEntry config.LabelConfigs size diff = entry →
      ProcessPullRequest api (some files) (some pr) config =
        (((labelNames pr).filter (fun l =>
            decide (∃ t ∈ config.LabelConfigs, l ∈ t.Labels))).map
          ApiCall.RemoveLabelForIssue, Ending.returned)) := by
  have hsel : ∀ l : String,
      (isSizeLabel l config.LabelConfigs && !contains entry.Labels l) =
        decide (∃ t ∈ config.LabelConfigs, l ∈ t.Labels) := by
    intro l
    rw [Bool.eq_iff_iff]
    simp [hempty, contains, isSizeLabel_iff]
  have hrun : updatePullRequestLabel api (some pr) config entry =
      (((labelNames pr).filter (fun l =>
          decide (∃ t ∈ config.LabelConfigs, l ∈ t.Labels))).map
        ApiCall.RemoveLabelForIssue, false) := by
    rw [updatePullRequestLabel_ok api hapi]
    simp only [hsel]
    simp only [hempty, List.filter_nil, List.map_nil, List.append_nil]
  refine ⟨hrun, ?_⟩
  intro files size diff hmap hwin
  simp only [ProcessPullRequest, hmap, hwin, hrun]
  simp

theorem updatePullRequestLabel_empty_labels_witness :
    updatePullRequestLabel apiOk (some (mockPullRequest ["size/s", "bug"])) emptyLabelsConfig
      ⟨"xs", 10, 1, []⟩ = ([ApiCall.RemoveLabelForIssue "size/s"], false) :=
  (updatePullRequestLabel_empty_labels apiOk (fun _ _ => rfl)
    (mockPullRequest ["size/s", "bug"]) emptyLabelsConfig ⟨"xs", 10, 1, []⟩ rfl).1.trans
    (by decide)

/-- C11, counterexample: the first tier of the configuration references no
label; for a pull request without changed files it is the winning tier, and
the run removes the label "size/s", adds nothing and returns normally. -/
theorem empty_labels_run_counterexample :
    biggestEntryOfCounts (calculateSizeAndDiff [] emptyLabelsConfig).1
      (calculateSizeAndDiff [] emptyLabelsConfig).2 emptyLabelsConfig = .ok ⟨"xs", 10, 1, []⟩ ∧
    (ConfigEntry.mk "xs" 10 1 []).Labels = [] ∧
    updatePullRequestLabel apiOk (some (mockPullRequest ["size/s", "bug"])) emptyLabelsConfig
      ⟨"xs", 10, 1, []⟩ = ([ApiCall.RemoveLabelForIssue "size/s"], false) ∧
    ProcessPullRequest apiOk (some []) (some (mockPullRequest ["size/s", "bug"]))
      emptyLabelsConfig = ([ApiCall.RemoveLabelForIssue "size/s"], Ending.returned) := by
  refine ⟨by decide, rfl, by decide, by decide⟩

/-- C17: when the current labels of the pull request are exactly the labels of
a configured tier `m` together with labels that belong to no configured tier,
and the winner is a configured tier `l` whose label list shares no label with
that of `m`, the run removes exactly the labels of `m`, adds exactly the
labels of `l`, and neither removes nor adds any other current label. -/
theorem reconcile_round_trip (api : ApiErrors) (hapi : ∀ log c, api log c = false)
    (pr : PullRequest) (config : Config) (m l : ConfigEntry)
    (hm : m ∈ config.LabelConfigs) (hl : l ∈ config.LabelConfigs)
    (hdisj : ∀ x, x ∈ m.Labels → x ∉ l.Labels)
    (hhas : ∀ x, x ∈ m.Labels → x ∈ labelNames pr)
    (hcur : ∀ x, x ∈ labelNames pr →
      x ∈ m.Labels ∨ ∀ t ∈ config.LabelConfigs, x ∉ t.Labels) :
    (∀ x, x ∈ removedLabels (updatePullRequestLabel api (some pr) config l).1 ↔
      x ∈ m.Labels) ∧
    addedLabels (updatePullRequestLabel api (some pr) config l).1 = l.Labels ∧
    (∀ x, x ∈ labelNames pr → x ∉ m.Labels →
      x ∉ removedLabels (updatePullRequestLabel api (some pr) config l).1 ∧
      x ∉ addedLabels (updatePullRequestLabel api (some pr) config l).1) := by
  have hrem : ∀ x, x ∈ removedLabels (updatePullRequestLabel api (some pr) config l).1 ↔
      x ∈ m.Labels := by
    intro x
    rw [mem_removedLabels_update api hapi]
    constructor
    · rintro ⟨hc, ⟨t, ht, hxt⟩, _⟩
      rcases hcur x hc with h | h
      · exact h
      · exact absurd hxt (h t ht)
    · intro hx
      exact ⟨hhas x hx, ⟨m, hm, hx⟩, hdisj x hx⟩
  have hnot : ∀ x, x ∈ l.Labels → x ∉ labelNames pr := by
    intro x hx hc
    rcases hcur x hc with h | h
    · exact hdisj x h hx
    · exact h l hl hx
  have hadd : addedLabels (updatePullRequestLabel api (some pr) config l).1 = l.Labels := by
    rw [addedLabels_update api hapi, List.filter_eq_self]
    intro x hx
    have : labelExists pr x = false := by
      rcases Bool.eq_false_or_eq_true (labelExists pr x) with h | h
      · exact absurd ((labelExists_iff pr x).mp h) (hnot x hx)
      · exact h
    simp [this]
  refine ⟨hrem, hadd, ?_⟩
  intro x hc hnm
  refine ⟨fun h => hnm ((hrem x).mp h), ?_⟩
  rw [hadd]
  exact fun h => hnot x h hc

theorem reconcile_round_trip_witness :
    removedLabels (updatePullRequestLabel apiOk (some (mockPullRequest ["size/m", "bug"]))
      scenarioEConfig tierL).1 = ["size/m"] ∧
    addedLabels (updatePullRequestLabel apiOk (some (mockPullRequest ["size/m", "bug"]))
      scenarioEConfig tierL).1 = ["size/l"] ∧
    "bug" ∉ removedLabels (updatePullRequestLabel apiOk
      (some (mockPullRequest ["size/m", "bug"])) scenarioEConfig tierL).1 :=
  ⟨by decide,
   (reconcile_round_trip apiOk (fun _ _ => rfl) (mockPullRequest ["size/m", "bug"])
      scenarioEConfig ⟨"m", 100, 20, ["size/m"]⟩ tierL (by decide) (by decide)
      (by intro x hx; simp at hx; subst hx; decide)
      (by intro x hx; simp at hx; subst hx; decide)
      (by
        intro x hx
        simp [labelNames, mockPullRequest, Label.GetName] at hx
        rcases hx with h | h
        · left; simp [h]
        · right; subst h; decide)).2.1,
   by decide⟩

/-! ## `strings.Split` on the separator "/" -/

theorem Index_none_iff (sep : Nat) (s : List Nat) : Index sep s = none ↔ sep ∉ s := by
  induction s with
  | nil => simp [Index]
  | cons c t ih =>
    by_cases h : c = sep
    · simp [Index, h]
    · simp [Index, h, ih, Ne.symm h]

theorem Count_eq_zero_of_not_mem (sep : Nat) (s : List Nat) (h : sep ∉ s) : Count sep s = 0 := by
  induction s with
  | nil => rfl
  | cons c t ih =>
    have hc : c ≠ sep := fun hc => h (by simp [hc])
    have ht : sep ∉ t := fun ht => h (by simp [ht])
    simp [Count, hc, ih ht]

theorem Index_some (sep : Nat) :
    ∀ (s : List Nat) (m : Nat), Index sep s = some m →
      s = s.take m ++ sep :: s.drop (m + 1) ∧ sep ∉ s.take m ∧
        Count sep s = Count sep (s.drop (m + 1)) + 1 := by
  intro s
  induction s with
  | nil => intro m h; simp [Index] at h
  | cons c t ih =>
    intro m h
    by_cases hc : c = sep
    · simp only [Index, hc, if_true, Option.some.injEq] at h
      subst h
      simp [hc, Count]
    · simp only [Index, hc, if_false, Option.map_eq_some'] at h
      obtain ⟨k, hk, rfl⟩ := h
      obtain ⟨h1, h2, h3⟩ := ih k hk
      refine ⟨?_, ?_, ?_⟩
      · simp only [List.take_succ_cons, List.drop_succ_cons, List.cons_append]
        rw [← h1]
      · simp only [List.take_succ_cons, List.mem_cons, not_or]
        exact ⟨Ne.symm hc, h2⟩
      · simp only [Count, hc, if_false, List.drop_succ_cons]
        exact h3

theorem Index_append (sep : Nat) (a b : List Nat) (ha : sep ∉ a) :
    Index sep (a ++ sep :: b) = some a.length := by
  induction a with
  | nil => simp [Index]
  | cons c t ih =>
    have hc : c ≠ sep := fun hc => ha (by simp [hc])
    have ht : sep ∉ t := fun ht => ha (by simp [ht])
    simp [Index, hc, ih ht]

/-- `strings.Split` cuts at the first separator and splits the rest. -/
theorem Split_eq (sep : Nat) (s : List Nat) :
    Split s sep =
      match Index sep s with
      | none => [s]
      | some m => s.take m :: Split (s.drop (m + 1)) sep := by
  cases h : Index sep s with
  | none =>
    have := Count_eq_zero_of_not_mem sep s ((Index_none_iff sep s).mp h)
    simp [Split, this, genSplitLoop]
  | some m =>
    obtain ⟨_, _, h3⟩ := Index_some sep s m h
    simp [Split, h3, genSplitLoop, h]

theorem Split_ne_nil (sep : Nat) (s : List Nat) : Split s sep ≠ [] := by
  rw [Split_eq]
  cases Index sep s <;> simp

/-- `strings.Split` returns two elements exactly for a string with one
separator, and they are the text before and the text after it. -/
theorem Split_two_iff (sep : Nat) (s a b : List Nat) :
    Split s sep = [a, b] ↔ s = a ++ sep :: b ∧ sep ∉ a ∧ sep ∉ b := by
  constructor
  · intro h
    rw [Split_eq] at h
    cases hi : Index sep s with
    | none => rw [hi] at h; simp at h
    | some m =>
      rw [hi] at h
      simp only [List.cons.injEq] at h
      obtain ⟨ha, hrest⟩ := h
      obtain ⟨h1, h2, _⟩ := Index_some sep s m hi
      rw [Split_eq] at hrest
      cases hj : Index sep (s.drop (m + 1)) with
      | none =>
        rw [hj] at hrest
        simp only [List.cons.injEq, and_true] at hrest
        refine ⟨?_, ha ▸ h2, hrest ▸ (Index_none_iff sep _).mp hj⟩
        rw [← ha, ← hrest]
        exact h1
      | some k =>
        rw [hj] at hrest
        simp only [List.cons.injEq] at hrest
        exact absurd hrest.2 (Split_ne_nil sep _)
  · rintro ⟨hs, ha, hb⟩
    have hi := Index_append sep a b ha
    rw [← hs] at hi
    rw [Split_eq, hi]
    have h1 : s.take a.length = a := by rw [hs]; simp
    have h2 : s.drop (a.length + 1) = b := by rw [hs]; simp
    simp only [h1, h2]
    rw [Split_eq, (Index_none_iff sep b).mpr hb]

/-! ## Repository name and event type -/

theorem sliceIndex_pair (a b : List Nat) :
    sliceIndex [a, b] 0 = .ok a ∧ sliceIndex [a, b] 1 = .ok b := by
  constructor <;> simp [sliceIndex]

theorem isValidRepoNameFormat_split (r : String) :
    isValidRepoNameFormat r = true ↔
      ∃ a b, Split (goBytes r) 47 = [a, b] ∧ a ≠ [] ∧ b ≠ [] := by
  unfold isValidRepoNameFormat
  constructor
  · intro h
    by_cases hlen : (Split (goBytes r) 47).length = 2
    · obtain ⟨a, b, hab⟩ := List.length_eq_two.mp hlen
      refine ⟨a, b, hab, ?_⟩
      simp only [hab, List.length_cons, List.length_nil, if_true, (sliceIndex_pair a b).1,
        (sliceIndex_pair a b).2] at h
      simpa using h
    · simp [hlen] at h
  · rintro ⟨a, b, hab, ha, hb⟩
    simp only [hab, List.length_cons, List.length_nil, if_true, (sliceIndex_pair a b).1,
      (sliceIndex_pair a b).2]
    simp [ha, hb]

/-- C21: `isValidRepoNameFormat` is true exactly for a name in the
'owner/repository' format: it has exactly one "/", and the text before it and
the text after it are both non-empty; "/repo", "owner/", "owner" and
"owner/repo/extra" are rejected. -/
theorem isValidRepoNameFormat_iff (r : String) :
    (isValidRepoNameFormat r = true ↔
      ∃ owner name : List Nat, goBytes r = owner ++ goBytes "/" ++ name ∧
        owner ≠ [] ∧ name ≠ [] ∧
        (∀ c ∈ goBytes "/", c ∉ owner) ∧ (∀ c ∈ goBytes "/", c ∉ name)) ∧
    (isValidRepoNameFormat r = true → Count 47 (goBytes r) = 1) ∧
    goBytes "/" = [47] ∧
    isValidRepoNameFormat "owner/repo" = true ∧
    isValidRepoNameFormat "/repo" = false ∧
    isValidRepoNameFormat "owner/" = false ∧
    isValidRepoNameFormat "owner" = false ∧
    isValidRepoNameFormat "owner/repo/extra" = false := by
  have hsep : goBytes "/" = [47] := by decide
  refine ⟨?_, ?_, hsep, by decide, by decide, by decide, by decide, by decide⟩
  · rw [isValidRepoNameFormat_split, hsep]
    constructor
    · rintro ⟨a, b, hab, ha, hb⟩
      obtain ⟨hs, h1, h2⟩ := (Split_two_iff 47 _ a b).mp hab
      exact ⟨a, b, by simpa using hs, ha, hb, by simpa using h1, by simpa using h2⟩
    · rintro ⟨a, b, hs, ha, hb, h1, h2⟩
      exact ⟨a, b, (Split_two_iff 47 _ a b).mpr
        ⟨by simpa using hs, by simpa using h1, by simpa using h2⟩, ha, hb⟩
  · intro h
    obtain ⟨a, b, hab, _, _⟩ := (isValidRepoNameFormat_split r).mp h
    obtain ⟨hs, h1, h2⟩ := (Split_two_iff 47 _ a b).mp hab
    obtain ⟨_, _, hc⟩ := Index_some 47 _ _ (hs ▸ Index_append 47 a b h1)
    rw [hc, Count_eq_zero_of_not_mem]
    rw [hs]
    simpa using h2

/-- C24: for a repository name accepted by `isValidRepoNameFormat`,
`parseRepoOwner` and `parseRepoName` return without a fault, the owner
followed by "/" and the name is the repository name, and both the owner and
the name are non-empty and contain no "/". -/
theorem parseRepo_round_trip (r : String) (h : isValidRepoNameFormat r = true) :
    ∃ owner name : List Nat,
      parseRepoOwner r = .ok owner ∧ parseRepoName r = .ok name ∧
      owner ++ goBytes "/" ++ name = goBytes r ∧
      owner ≠ [] ∧ name ≠ [] ∧
      (∀ c ∈ goBytes "/", c ∉ owner) ∧ (∀ c ∈ goBytes "/", c ∉ name) := by
  have hsep : goBytes "/" = [47] := by decide
  obtain ⟨a, b, hab, ha, hb⟩ := (isValidRepoNameFormat_split r).mp h
  obtain ⟨hs, h1, h2⟩ := (Split_two_iff 47 _ a b).mp hab
  refine ⟨a, b, ?_, ?_, ?_, ha, hb, ?_, ?_⟩
  · simp only [parseRepoOwner, hab, (sliceIndex_pair a b).1]
  · simp [parseRepoName, hab, (sliceIndex_pair a b).2]
  · rw [hsep, hs]; simp
  · rw [hsep]; simpa using h1
  · rw [hsep]; simpa using h2

theorem parseRepo_round_trip_witness :
    isValidRepoNameFormat "owner/repo" = true ∧
    parseRepoOwner "owner/repo" = .ok (goBytes "owner") ∧
    parseRepoName "owner/repo" = .ok (goBytes "repo") ∧
    ∃ owner name : List Nat,
      parseRepoOwner "owner/repo" = .ok owner ∧ parseRepoName "owner/repo" = .ok name ∧
      owner ++ goBytes "/" ++ name = goBytes "owner/repo" ∧
      owner ≠ [] ∧ name ≠ [] ∧
      (∀ c ∈ goBytes "/", c ∉ owner) ∧ (∀ c ∈ goBytes "/", c ∉ name) :=
  ⟨by decide, by decide, by decide, parseRepo_round_trip "owner/repo" (by decide)⟩

theorem mapIndex_allowedEvents (key : String) :
    mapIndex allowedEvents key = true ↔ key = "pull_request" ∨ key = "pull_request_target" := by
  by_cases h1 : "pull_request" = key
  · simp [mapIndex, allowedEvents, h1]
  · by_cases h2 : "pull_request_target" = key
    · simp [mapIndex, allowedEvents, h1, h2]
    · simp [mapIndex, allowedEvents, h1, h2, Ne.symm h1, Ne.symm h2]

/-- C22: `isValidGitHubEventType` is true exactly for an event name that,
converted to lower case by `strings.ToLower`, is "pull_request" or
"pull_request_target", whatever the case tables of the library say on the
runes above ASCII; the empty string, "push" and "pull_request_closed" are
rejected. -/
theorem isValidGitHubEventType_iff (lowerCase : Char → Char) (e : String) :
    (isValidGitHubEventType lowerCase e = true ↔
      ToLower lowerCase e = "pull_request" ∨ ToLower lowerCase e = "pull_request_target") ∧
    isValidGitHubEventType lowerCase "pull_request" = true ∧
    isValidGitHubEventType lowerCase "pull_request_target" = true ∧
    isValidGitHubEventType lowerCase "Pull_Request" = true ∧
    isValidGitHubEventType lowerCase "" = false ∧
    isValidGitHubEventType lowerCase "push" = false ∧
    isValidGitHubEventType lowerCase "pull_request_closed" = false := by
  refine ⟨?_, rfl, rfl, rfl, rfl, rfl, rfl⟩
  rw [← mapIndex_allowedEvents]
  unfold isValidGitHubEventType
  cases mapIndex allowedEvents (ToLower lowerCase e) <;> simp

/-! ## Monotonicity of the tier resolution -/

theorem getSizeLoop_some_index (p : String) (n : Int) :
    ∀ (cfg : List ConfigEntry) (e : ConfigEntry), getSizeLoop cfg n p = some e →
      ∃ i : Nat, cfg[i]? = some e ∧ n ≤ entryValue e p ∧
        ∀ (j : Nat) (e2 : ConfigEntry), j < i → cfg[j]? = some e2 → entryValue e2 p < n := by
  intro cfg
  induction cfg with
  | nil => intro e h; simp [getSizeLoop] at h
  | cons a rest ih =>
    intro e h
    by_cases ha : n ≤ entryValue a p
    · simp only [getSizeLoop, ha, if_true, Option.some.injEq] at h
      subst h
      exact ⟨0, by simp, ha, by intro j e2 hj; omega⟩
    · simp only [getSizeLoop, ha, if_false] at h
      obtain ⟨i, hi, hle, hlt⟩ := ih e h
      refine ⟨i + 1, by simpa using hi, hle, ?_⟩
      intro j e2 hj hje
      cases j with
      | zero =>
        simp at hje
        subst hje
        exact not_le.mp ha
      | succ k => exact hlt k e2 (by omega) (by simpa using hje)

theorem getSizeLoop_none_all (p : String) (n : Int) :
    ∀ cfg : List ConfigEntry, getSizeLoop cfg n p = none → ∀ e ∈ cfg, entryValue e p < n := by
  intro cfg
  induction cfg with
  | nil => intro _ e he; simp at he
  | cons a rest ih =>
    intro h e he
    by_cases ha : n ≤ entryValue a p
    · simp [getSizeLoop, ha] at h
    · simp only [getSizeLoop, ha, if_false] at h
      rcases List.mem_cons.mp he with h1 | h1
      · rw [h1]; exact not_le.mp ha
      · exact ih h e h1

/-- On a non-empty tier list `getSize` returns the tier at a position that
`ResolvesAt` describes. -/
theorem getSize_resolvesAt (cfg : List ConfigEntry) (n : Int) (p : String) (hne : cfg ≠ []) :
    ∃ i e, ResolvesAt cfg (fun t => entryValue t p) n i ∧ cfg[i]? = some e ∧
      getSize cfg n p = .ok e := by
  cases hloop : getSizeLoop cfg n p with
  | some e =>
    obtain ⟨i, hi, hle, hlt⟩ := getSizeLoop_some_index p n cfg e hloop
    exact ⟨i, e, Or.inl ⟨e, hi, hle, hlt⟩, hi, by simp [getSize, hloop]⟩
  | none =>
    have hall := getSizeLoop_none_all p n cfg hloop
    have hpos : 0 < cfg.length := List.length_pos.mpr hne
    refine ⟨cfg.length - 1, cfg.getLast hne, Or.inr ⟨by omega, hall⟩, ?_, ?_⟩
    · rw [List.getLast_eq_getElem, List.getElem?_eq_getElem]
    · simp [getSize, hloop, sliceIndex_last cfg hne]

/-- The position resolved for a count does not decrease when the count
grows. -/
theorem resolvesAt_mono (cfg : List ConfigEntry) (thr : ConfigEntry → Int) (m n : Int)
    (hmn : m ≤ n) (i j : Nat) (hi : ResolvesAt cfg thr m i) (hj : ResolvesAt cfg thr n j) :
    i ≤ j := by
  have hilt : i < cfg.length := by
    rcases hi with ⟨e, he, _, _⟩ | ⟨h, _⟩
    · exact (List.getElem?_eq_some.mp he).1
    · omega
  rcases hj with ⟨ej, hej, hle, _⟩ | ⟨hlast, _⟩
  · by_contra hij
    have hlt : j < i := by omega
    rcases hi with ⟨e, _, _, hbefore⟩ | ⟨_, hall⟩
    · have := hbefore j ej hlt hej
      omega
    · have := hall ej (List.mem_iff_getElem?.mpr ⟨j, hej⟩)
      omega
  · omega

/-- C23: `getSize` is monotone in the count. On a non-empty tier list, sorted
or not, for each of the dimensions "files" and "diff" and all counts
`m <= n`, `getSize` returns for `m` and for `n` the tiers at the positions it
resolves them to, and the position for `n` is greater than or equal to the
position for `m`. -/
theorem getSize_monotone (configuration : List ConfigEntry) (m n : Int)
    (hne : configuration ≠ []) (hmn : m ≤ n) :
    (∃ i j ei ej, ResolvesAt configuration ConfigEntry.Files m i ∧
        ResolvesAt configuration ConfigEntry.Files n j ∧
        configuration[i]? = some ei ∧ configuration[j]? = some ej ∧
        getSize configuration m "files" = .ok ei ∧
        getSize configuration n "files" = .ok ej ∧ i ≤ j) ∧
    (∀ i j, ResolvesAt configuration ConfigEntry.Files m i →
        ResolvesAt configuration ConfigEntry.Files n j → i ≤ j) ∧
    (∃ i j ei ej, ResolvesAt configuration ConfigEntry.Diff m i ∧
        ResolvesAt configuration ConfigEntry.Diff n j ∧
        configuration[i]? = some ei ∧ configuration[j]? = some ej ∧
        getSize configuration m "diff" = .ok ei ∧
        getSize configuration n "diff" = .ok ej ∧ i ≤ j) ∧
    (∀ i j, ResolvesAt configuration ConfigEntry.Diff m i →
        ResolvesAt configuration ConfigEntry.Diff n j → i ≤ j) := by
  have hF : (fun t => entryValue t "files") = ConfigEntry.Files := funext entryValue_files
  have hD : (fun t => entryValue t "diff") = ConfigEntry.Diff := funext entryValue_diff
  refine ⟨?_, fun i j => resolvesAt_mono configuration _ m n hmn i j, ?_,
    fun i j => resolvesAt_mono configuration _ m n hmn i j⟩
  · obtain ⟨i, ei, hi, hgi, hsi⟩ := getSize_resolvesAt configuration m "files" hne
    obtain ⟨j, ej, hj, hgj, hsj⟩ := getSize_resolvesAt configuration n "files" hne
    rw [hF] at hi hj
    exact ⟨i, j, ei, ej, hi, hj, hgi, hgj, hsi, hsj,
      resolvesAt_mono configuration _ m n hmn i j hi hj⟩
  · obtain ⟨i, ei, hi, hgi, hsi⟩ := getSize_resolvesAt configuration m "diff" hne
    obtain ⟨j, ej, hj, hgj, hsj⟩ := getSize_resolvesAt configuration n "diff" hne
    rw [hD] at hi hj
    exact ⟨i, j, ei, ej, hi, hj, hgi, hgj, hsi, hsj,
      resolvesAt_mono configuration _ m n hmn i j hi hj⟩

theorem getSize_monotone_witness :
    ∃ i j ei ej, ResolvesAt testTiers ConfigEntry.Files 10 i ∧
      ResolvesAt testTiers ConfigEntry.Files 15 j ∧
      testTiers[i]? = some ei ∧ testTiers[j]? = some ej ∧
      getSize testTiers 10 "files" = .ok ei ∧
      getSize testTiers 15 "files" = .ok ej ∧ i ≤ j :=
  (getSize_monotone testTiers 10 15 (by decide) (by decide)).1

end PrSizeLabeler
